import Mathlib

/-!
Verification of the content-synchronization pipeline of a WordPress bulk-upload
tool (`bulk-upload.js` and its companion debug scripts).  JavaScript strings
are modelled as Lean `String`s, with the character-level work done on
`List Char`.  Remote I/O (the WordPress REST API) is modelled by explicit
oracle functions, and the remote taxonomy / post collections by explicit state
threaded through the operations.  All definitions are structurally recursive so
that every concrete run evaluates inside the kernel.
-/

namespace WPSync

/-- Characters treated as whitespace by the JavaScript `\s` regex class and
`trim` as used in the source (the ASCII core of the ECMAScript class). -/
def jsWs (c : Char) : Bool :=
  c = ' ' || c = '\t' || c = '\n' || c = '\r' || c = '\x0b' || c = '\x0c'

/-- JavaScript `String.prototype.trim` on a character list: drop whitespace
from both ends. -/
def trimChars (l : List Char) : List Char :=
  ((l.dropWhile jsWs).reverse.dropWhile jsWs).reverse

/-- JavaScript `.trim()`. -/
def jsTrim (s : String) : String := ⟨trimChars s.data⟩

/-- JavaScript `String.prototype.toLowerCase`, restricted to the ASCII range
(all titles handled by the tool are ASCII). -/
def lowerChar (c : Char) : Char :=
  if 'A' ≤ c ∧ c ≤ 'Z' then Char.ofNat (c.toNat + 32) else c

/-- Lowercase a whole string. -/
def lowerStr (s : String) : String := ⟨s.data.map lowerChar⟩

/-- Substring containment on character lists (JavaScript `includes`). -/
def infixOf (needle : List Char) : List Char → Bool
  | [] => needle.isEmpty
  | c :: t => needle.isPrefixOf (c :: t) || infixOf needle t

/-- State machine for the global regex replacement `<[^>]*>` → `""`.  In mode
`none` we are outside any candidate tag; in mode `some acc`, `acc` holds (in
reverse) the characters consumed since the opening `<` of a candidate tag.  A
`>` closes the tag (everything consumed is dropped); if the input ends inside a
candidate tag, the regex never matched there, so the consumed characters are
restored verbatim. -/
def stripAux : Option (List Char) → List Char → List Char
  | none, [] => []
  | none, c :: r => if c = '<' then stripAux (some []) r else c :: stripAux none r
  | some acc, [] => '<' :: acc.reverse
  | some acc, c :: r =>
    if c = '>' then stripAux none r else stripAux (some (c :: acc)) r

/-- Global replacement of the regex `<[^>]*>` by the empty string (first step
of `normalizeTitle`). -/
def stripTags (l : List Char) : List Char := stripAux none l

/-- Global `String.prototype.replace` with a nonempty literal pattern
`p :: ps`: scan left to right, emit `repl` at each occurrence and continue
after the matched source region (the replacement text is not rescanned).  The
first argument counts input characters still to be skipped because they belong
to an already-emitted match. -/
def replAux (p : Char) (ps repl : List Char) : Nat → List Char → List Char
  | _ + 1, [] => []
  | n + 1, _ :: r => replAux p ps repl n r
  | 0, [] => []
  | 0, c :: r =>
    if c = p ∧ ps.isPrefixOf r then repl ++ replAux p ps repl ps.length r
    else c :: replAux p ps repl 0 r

/-- One entity-decoding pass `.replace(/pat/g, repl)` with a literal pattern. -/
def replaceEnt (pat repl : String) (l : List Char) : List Char :=
  match pat.data with
  | [] => l
  | p :: ps => replAux p ps repl.data 0 l

/-- State machine for the global regex replacement `&[^;]+;` → `""`.  In mode
`some acc`, `acc` holds (in reverse) the body characters consumed since the
most recent `&`.  A `;` after a nonempty body completes a match (dropped); a
`;` immediately after the `&` means the regex fails there (`[^;]+` needs at
least one character), so `&;` is restored; reaching the end of input inside a
candidate restores the consumed characters verbatim (no later `&` could match
either, as no `;` remains). -/
def remEntAux : Option (List Char) → List Char → List Char
  | none, [] => []
  | none, c :: r => if c = '&' then remEntAux (some []) r else c :: remEntAux none r
  | some acc, [] => '&' :: acc.reverse
  | some acc, c :: r =>
    if c = ';' then
      match acc with
      | [] => '&' :: ';' :: remEntAux none r
      | _ :: _ => remEntAux none r
    else remEntAux (some (c :: acc)) r

/-- Global replacement of the regex `&[^;]+;` by the empty string. -/
def removeEntities (l : List Char) : List Char := remEntAux none l

/-- State machine for the global replacement `\s+` → `" "`: the flag records
whether we are inside a whitespace run whose single `' '` was already
emitted. -/
def collapseAux : Bool → List Char → List Char
  | _, [] => []
  | inRun, c :: r =>
    if jsWs c then
      if inRun then collapseAux true r else ' ' :: collapseAux true r
    else c :: collapseAux false r

/-- Global replacement of `\s+` by a single space. -/
def collapseWs (l : List Char) : List Char := collapseAux false l

/-- Character-level body of `normalizeTitle` (defined inside `findPostByTitle`
in bulk-upload.js): strip HTML tags, decode the listed HTML entities, drop any
remaining entities, collapse whitespace, lowercase, trim — in exactly the
source's order. -/
def normalizeChars (l : List Char) : List Char :=
  trimChars (List.map lowerChar (collapseWs (removeEntities
    (replaceEnt "&#038;" "&"
      (replaceEnt "&#39;" "\x27"
        (replaceEnt "&#8216;" "\x27"
          (replaceEnt "&#8217;" "\x27"
            (replaceEnt "&quot;" "\""
              (replaceEnt "&amp;" "&"
                (replaceEnt "&nbsp;" " " (stripTags l)))))))))))

/-- The `normalizeTitle` helper of `findPostByTitle` in bulk-upload.js. -/
def normalizeTitle (s : String) : String := ⟨normalizeChars s.data⟩

example : normalizeTitle "<b>Weekend Brunch</b> &amp; More" = "weekend brunch & more" := by
  decide

/-- Characters admitted by the drive-file-id capture groups `[a-zA-Z0-9_-]`. -/
def isIdChar (c : Char) : Bool := c.isAlphanum || c = '_' || c = '-'

/-- Leftmost match of the regex `marker([idchars]+)` (with `marker` a literal):
scan every position; where `marker` occurs and at least one id character
follows, capture the maximal id-character run; otherwise keep scanning. -/
def firstCapture (marker : List Char) : List Char → Option (List Char)
  | [] => none
  | c :: r =>
    if marker.isPrefixOf (c :: r) then
      let run := ((c :: r).drop marker.length).takeWhile isIdChar
      if run.isEmpty then firstCapture marker r else some run
    else firstCapture marker r

/-- The `convertGoogleDriveUrl` function of the debug script
(reproduce_issue.js): a URL containing `drive.google.com` whose file id can be
extracted via `/d/<id>` or `id=<id>` is rewritten to the direct-download form;
anything else is returned unchanged. -/
def convertGoogleDriveUrl (url : String) : String :=
  if url = "" then url
  else if infixOf "drive.google.com".data url.data then
    match firstCapture "/d/".data url.data with
    | some fid => "https://drive.google.com/uc?export=download&id=" ++ (⟨fid⟩ : String)
    | none =>
      match firstCapture "id=".data url.data with
      | some fid => "https://drive.google.com/uc?export=download&id=" ++ (⟨fid⟩ : String)
      | none => url
  else url

/-- The asset record built by the debug script's fetcher (its `mimeType` is
the raw `content-type` header, with no fallback). -/
structure DbgAsset where
  buffer : String
  mimeType : Option String
  fileName : String
deriving DecidableEq

/-- Leftmost match of the filename regex `/filename="?([^"]+)"?/` of the debug
script: after a literal `filename=`, an optional quote, then one or more
non-quote characters are captured. -/
def filenameCapture : List Char → Option (List Char)
  | [] => none
  | c :: r =>
    if "filename=".data.isPrefixOf (c :: r) then
      let after := (c :: r).drop 9
      let cap :=
        match after with
        | '"' :: t => t.takeWhile (fun d => d != '"')
        | _ => after.takeWhile (fun d => d != '"')
      if cap.isEmpty then filenameCapture r else some cap
    else filenameCapture r

/-- A resource of the remote collection (`/posts`), in the shape the scans
read: numeric id, rendered title, slug, status. -/
structure Post where
  id : Nat
  title : String
  slug : String
  status : String
deriving DecidableEq

/-- A taxonomy term (category or tag) of the remote site. -/
structure Term where
  id : Nat
  name : String
deriving DecidableEq

/-- Remote state of one taxonomy collection: its terms plus the id the server
will assign to the next created term. -/
structure TaxState where
  terms : List Term
  nextId : Nat
deriving DecidableEq

/-- One parsed CSV row.  A `none` field models a column absent from the CSV;
`some s` a present (possibly empty) cell.  Field names follow the source. -/
structure RowData where
  title : Option String := none
  content : Option String := none
  slug : Option String := none
  excerpt : Option String := none
  status : Option String := none
  categories : Option String := none
  tags : Option String := none
  acf_json : Option String := none
  featured_image_path : Option String := none
  featured_image_url : Option String := none
deriving DecidableEq

/-- An HTTP response to an image download: body bytes (as a string) and the
`content-type` / `content-disposition` headers (absent headers are `none`). -/
structure ImgResponse where
  body : String
  contentType : Option String
  contentDisposition : Option String
deriving DecidableEq

/-- The in-memory binary produced by `downloadImageFromUrl` in bulk-upload.js
(`{ buffer, mimeType, fileName }`). -/
structure MediaAsset where
  buffer : String
  mimeType : String
  fileName : String
deriving DecidableEq

/-- Behavior of the outside world for one run: connectivity, which remote
calls throw, and the payloads returned by downloads / uploads / writes.
WordPress identifiers are positive integers, so the source's JavaScript
truthiness tests on identifiers are modelled as `Option` presence. -/
structure Env where
  connected : Bool
  scanFail : Nat → Bool
  slugFail : Bool
  termSearchFail : String → String → Bool
  termCreateFail : String → String → Bool
  imgFetch : String → Option ImgResponse
  fileExists : String → Bool
  fileBytes : String → String
  mediaUpload : Option Nat
  createResult : Except String (Nat × String)
  updateResult : Nat → Except String (Nat × String)
  acfValid : String → Bool

/-- One remote API call issued by the pipeline (used to state which calls a
row did or did not trigger). -/
inductive RemoteCall where
  | termSearch (taxonomy name : String)
  | termCreate (taxonomy name : String)
  | imgGet (url : String)
  | mediaUpload (fileName : String)
  | scanPage (page : Nat)
  | slugQuery (slug : String)
  | createPost
  | updatePost (id : Nat)
deriving DecidableEq

/-- Server side of `GET /{taxonomy}?search=q&per_page=100`: the terms whose
name contains the query case-insensitively (the collections in play are far
below the 100-item page cap, which is therefore not modelled). -/
def searchResults (st : TaxState) (q : String) : List Term :=
  st.terms.filter (fun t => infixOf (lowerStr q).data (lowerStr t.name).data)

/-- The `getOrCreateTerm` function of bulk-upload.js: search the taxonomy,
reuse a case-insensitive exact name match, create the term otherwise; any
thrown error is caught and yields `none`. -/
def getOrCreateTerm (name taxonomy : String) (st : TaxState) (env : Env) :
    Option Nat × TaxState × List RemoteCall :=
  if jsTrim name = "" then (none, st, [])
  else
    let trimmedName := jsTrim name
    if env.termSearchFail taxonomy trimmedName then
      (none, st, [.termSearch taxonomy trimmedName])
    else
      match (searchResults st trimmedName).find?
          (fun t => lowerStr t.name = lowerStr trimmedName) with
      | some t => (some t.id, st, [.termSearch taxonomy trimmedName])
      | none =>
        if env.termCreateFail taxonomy trimmedName then
          (none, st, [.termSearch taxonomy trimmedName, .termCreate taxonomy trimmedName])
        else
          (some st.nextId,
            ⟨st.terms ++ [⟨st.nextId, trimmedName⟩], st.nextId + 1⟩,
            [.termSearch taxonomy trimmedName, .termCreate taxonomy trimmedName])

/-- JavaScript `String.prototype.split(',')` on a character list. -/
def splitComma : List Char → List (List Char)
  | [] => [[]]
  | c :: r =>
    if c = ',' then [] :: splitComma r
    else
      match splitComma r with
      | [] => [[c]]
      | h :: t => (c :: h) :: t

/-- The label list of `resolveTerms`:
`termString.split(',').map(n => n.trim()).filter(Boolean)`. -/
def labelsOf (termString : String) : List String :=
  ((splitComma termString.data).map (fun l => jsTrim ⟨l⟩)).filter (fun s => s ≠ "")

/-- The per-label loop of `resolveTerms`, threading the taxonomy state. -/
def resolveLoop (taxonomy : String) (env : Env) :
    List String → TaxState → List Nat × TaxState × List RemoteCall
  | [], st => ([], st, [])
  | n :: ns, st =>
    let r := getOrCreateTerm n taxonomy st env
    let rest := resolveLoop taxonomy env ns r.2.1
    ((match r.1 with | some i => i :: rest.1 | none => rest.1), rest.2.1, r.2.2 ++ rest.2.2)

/-- The `resolveTerms` function of bulk-upload.js. -/
def resolveTerms (termString taxonomy : String) (st : TaxState) (env : Env) :
    List Nat × TaxState × List RemoteCall :=
  if jsTrim termString = "" then ([], st, [])
  else resolveLoop taxonomy env (labelsOf termString) st

/-- The `findPostBySlug` function of bulk-upload.js:
`GET /posts?slug=s&per_page=1`, returning the id of the first hit; a thrown
error is caught and yields `none`. -/
def findPostBySlug (slug : String) (posts : List Post) (env : Env) :
    Option Nat × List RemoteCall :=
  if jsTrim slug = "" then (none, [])
  else if env.slugFail then (none, [.slugQuery (jsTrim slug)])
  else
    match posts.find? (fun p => p.slug = jsTrim slug) with
    | some p => (some p.id, [.slugQuery (jsTrim slug)])
    | none => (none, [.slugQuery (jsTrim slug)])

/-- Page `page` of the remote collection, most-recent-first, page size 100
(`GET /posts?per_page=100&page=p&status=any&orderby=date&order=desc`). -/
def pageOf (posts : List Post) (page : Nat) : List Post :=
  (posts.drop ((page - 1) * 100)).take 100

/-- The pagination loop of `findPostByTitle`: fetch pages starting at `page`
with `fuel` pages still allowed (the source stops once `page` would exceed
10); stop on an empty page, on a match, on a short page, or when the page
budget is exhausted.  A thrown listing call ends the whole scan with `none`
(the enclosing catch). -/
def scanPages (needle : String) (posts : List Post) (env : Env) :
    Nat → Nat → Option Nat × List RemoteCall
  | _, 0 => (none, [])
  | page, fuel + 1 =>
    if env.scanFail page then (none, [.scanPage page])
    else
      let data := pageOf posts page
      if data.isEmpty then (none, [.scanPage page])
      else
        match data.find? (fun p => normalizeTitle p.title = needle) with
        | some p => (some p.id, [.scanPage page])
        | none =>
          if data.length < 100 then (none, [.scanPage page])
          else
            let rest := scanPages needle posts env (page + 1) fuel
            (rest.1, .scanPage page :: rest.2)

/-- The `findPostByTitle` function of bulk-upload.js: normalize the candidate
title and paginate the full collection (all statuses, most-recent-first, page
size 100, at most 10 pages), comparing normalized titles for equality. -/
def findPostByTitle (title : String) (posts : List Post) (env : Env) :
    Option Nat × List RemoteCall :=
  if jsTrim title = "" then (none, [])
  else scanPages (normalizeTitle title) posts env 1 10

/-- Extension-based MIME lookup (`mime.lookup`), for the image types the tool
handles; `none` when the extension is not recognized. -/
def extMime (s : String) : Option String :=
  let l := (lowerStr s).data
  if ".jpg".data.isSuffixOf l || ".jpeg".data.isSuffixOf l then some "image/jpeg"
  else if ".png".data.isSuffixOf l then some "image/png"
  else if ".gif".data.isSuffixOf l then some "image/gif"
  else if ".webp".data.isSuffixOf l then some "image/webp"
  else none

/-- Strip a leading `http://` or `https://` scheme. -/
def afterScheme (l : List Char) : List Char :=
  if "https://".data.isPrefixOf l then l.drop 8
  else if "http://".data.isPrefixOf l then l.drop 7
  else l

/-- The `path.basename(new URL(u).pathname)` computation: the part of the URL
path after the last `/`, with query and fragment stripped. -/
def urlBasename (url : String) : String :=
  let p := ((afterScheme url.data).takeWhile (fun c => c != '?' && c != '#')).dropWhile
    (fun c => c != '/')
  ⟨(p.reverse.takeWhile (fun c => c != '/')).reverse⟩

/-- The `downloadImageFromUrl` function of bulk-upload.js (the one the row
pipeline uses): fetch the URL; on success build the asset with MIME type
`content-type header || mime.lookup(url) || 'image/jpeg'` and filename
`basename(pathname) || 'image.jpg'`; a thrown request is caught and yields
`none`.  This version inspects no content type. -/
def downloadImageFromUrl (imageUrl : String) (env : Env) :
    Option MediaAsset × List RemoteCall :=
  match env.imgFetch imageUrl with
  | none => (none, [.imgGet imageUrl])
  | some resp =>
    let mt :=
      match resp.contentType with
      | some ct => if ct = "" then (extMime imageUrl).getD "image/jpeg" else ct
      | none => (extMime imageUrl).getD "image/jpeg"
    let bn := urlBasename imageUrl
    (some ⟨resp.body, mt, if bn = "" then "image.jpg" else bn⟩, [.imgGet imageUrl])

namespace Repro

/-- The `downloadImageFromUrl` function of the debug script
(reproduce_issue.js): unlike the pipeline's fetcher above, it inspects the
`content-type` header, and a response whose content type contains `text/html`
is treated as a failure (`null`) — the signature of a private drive link
returning a login page.  Filename priority: `content-disposition` header
(falling back to `image.jpg` when its regex fails) → URL path basename →
`image`. -/
def downloadImageFromUrl (imageUrl : String) (env : Env) : Option DbgAsset :=
  match env.imgFetch imageUrl with
  | none => none
  | some resp =>
    let ctHtml :=
      match resp.contentType with
      | some ct => ct != "" && infixOf "text/html".data ct.data
      | none => false
    if ctHtml then none
    else
      let bn := urlBasename imageUrl
      let fn :=
        match resp.contentDisposition with
        | some cd =>
          if cd = "" then (if bn = "" then "image" else bn)
          else
            match filenameCapture cd.data with
            | some cap => (⟨cap⟩ : String)
            | none => "image.jpg"
        | none => (if bn = "" then "image" else bn)
      some ⟨resp.body, resp.contentType, fn⟩

end Repro

/-- The filename part of a local path (`path.basename`). -/
def pathBasename (p : String) : String :=
  ⟨(p.data.reverse.takeWhile (fun c => c != '/')).reverse⟩

/-- The `uploadMedia` function of bulk-upload.js: a trimmed `http(s)://`
source is downloaded with `downloadImageFromUrl`, a local path is read from
disk when it exists; the bytes are then posted to `/media`; every failure is
caught and yields `none`. -/
def uploadMedia (filePathOrUrl : String) (env : Env) : Option Nat × List RemoteCall :=
  if jsTrim filePathOrUrl = "" then (none, [])
  else
    let t := jsTrim filePathOrUrl
    if "http://".data.isPrefixOf t.data || "https://".data.isPrefixOf t.data then
      let d := downloadImageFromUrl t env
      match d.1 with
      | none => (none, d.2)
      | some asset =>
        match env.mediaUpload with
        | none => (none, d.2 ++ [.mediaUpload asset.fileName])
        | some mid => (some mid, d.2 ++ [.mediaUpload asset.fileName])
    else
      if env.fileExists filePathOrUrl then
        let asset : MediaAsset :=
          ⟨env.fileBytes filePathOrUrl,
            (extMime filePathOrUrl).getD "application/octet-stream",
            pathBasename filePathOrUrl⟩
        match env.mediaUpload with
        | none => (none, [.mediaUpload asset.fileName])
        | some mid => (some mid, [.mediaUpload asset.fileName])
      else (none, [])

/-- The per-row outcome record of `createOrUpdatePost` (row number, title,
action, post id, status, error). -/
structure RecResult where
  rowNumber : Nat
  title : String
  action : Option String
  postId : Option Nat
  status : Option String
  error : Option String
deriving DecidableEq

/-- The write payload assembled by `createOrUpdatePost` (`postData`). -/
structure PostData where
  title : String
  content : String
  status : String
  slug : Option String
  excerpt : Option String
  acfAttached : Bool
  categories : Option (List Nat)
  tags : Option (List Nat)
  featured_media : Option Nat
deriving DecidableEq

/-- Mutable remote state threaded through a run: the post collection
(most-recent-first) and the two taxonomy collections. -/
structure Server where
  posts : List Post
  cats : TaxState
  tagTerms : TaxState
deriving DecidableEq

/-- Result of one reconciliation step: the row outcome, the remote state
afterwards, and the remote calls that were issued. -/
structure StepOut where
  result : RecResult
  server : Server
  calls : List RemoteCall
deriving DecidableEq

/-- Client configuration fields the reconciler reads. -/
structure Config where
  DEFAULT_STATUS : String
  REQUEST_DELAY_MS : Nat
deriving DecidableEq

/-- JavaScript `x?.trim()` collapsed over falsiness: an absent field and a
blank field both yield `""`. -/
def optTrim (o : Option String) : String :=
  match o with
  | some s => jsTrim s
  | none => ""

def missingTitleMsg : String := "Missing required field: title"

def missingContentMsg : String := "Missing required field: content"

/-- The duplicate-detected error message thrown by `createOrUpdatePost`. -/
def dupMsg (t : String) (pid : Nat) : String :=
  "Post with title \"" ++ t ++ "\" already exists (ID: " ++ toString pid ++
    "). Duplicate posts are not allowed."

/-- Failure outcome (the catch block of `createOrUpdatePost`). -/
def mkFail (rowNumber : Nat) (baseTitle e : String) (srv : Server)
    (calls : List RemoteCall) : StepOut :=
  ⟨⟨rowNumber, baseTitle, none, none, none, some e⟩, srv, calls⟩

/-- Success outcome of `createOrUpdatePost`. -/
def mkOk (rowNumber : Nat) (baseTitle action : String) (pid : Nat) (st : String)
    (srv : Server) (calls : List RemoteCall) : StepOut :=
  ⟨⟨rowNumber, baseTitle, some action, some pid, some st, none⟩, srv, calls⟩

/-- The `createOrUpdatePost` function of bulk-upload.js: validate required
fields, build the payload, resolve categories/tags, upload the featured
image, run the duplicate-title scan (a hit throws), look up the slug, then
update on a slug hit and create otherwise; every exception after validation is
caught into a failed result. -/
def createOrUpdatePost (row : RowData) (rowNumber : Nat) (server : Server)
    (env : Env) (config : Config) : StepOut :=
  let baseTitle :=
    match row.title with
    | some t => if t = "" then "Untitled" else t
    | none => "Untitled"
  if optTrim row.title = "" then mkFail rowNumber baseTitle missingTitleMsg server []
  else if optTrim row.content = "" then mkFail rowNumber baseTitle missingContentMsg server []
  else
    let titleT := optTrim row.title
    let statusV := if optTrim row.status = "" then config.DEFAULT_STATUS else optTrim row.status
    let slugV : Option String := if optTrim row.slug = "" then none else some (optTrim row.slug)
    let excerptV : Option String :=
      if optTrim row.excerpt = "" then none else some (optTrim row.excerpt)
    let acfA := if optTrim row.acf_json = "" then false else env.acfValid (row.acf_json.getD "")
    let catStep :=
      if optTrim row.categories = "" then (([] : List Nat), server.cats, ([] : List RemoteCall))
      else resolveTerms (row.categories.getD "") "categories" server.cats env
    let tagStep :=
      if optTrim row.tags = "" then (([] : List Nat), server.tagTerms, ([] : List RemoteCall))
      else resolveTerms (row.tags.getD "") "tags" server.tagTerms env
    let imagePath :=
      if optTrim row.featured_image_path = "" then optTrim row.featured_image_url
      else optTrim row.featured_image_path
    let mediaStep :=
      if imagePath = "" then ((none : Option Nat), ([] : List RemoteCall))
      else uploadMedia imagePath env
    let postData : PostData :=
      { title := titleT, content := optTrim row.content, status := statusV, slug := slugV,
        excerpt := excerptV, acfAttached := acfA,
        categories := if catStep.1 = [] then none else some catStep.1,
        tags := if tagStep.1 = [] then none else some tagStep.1,
        featured_media := mediaStep.1 }
    let server1 : Server := { server with cats := catStep.2.1, tagTerms := tagStep.2.1 }
    let preCalls := catStep.2.2 ++ tagStep.2.2 ++ mediaStep.2
    let dupStep := findPostByTitle postData.title server.posts env
    match dupStep.1 with
    | some existingId =>
      mkFail rowNumber baseTitle (dupMsg postData.title existingId) server1
        (preCalls ++ dupStep.2)
    | none =>
      let slugStep :=
        match postData.slug with
        | some s => findPostBySlug s server.posts env
        | none => ((none : Option Nat), ([] : List RemoteCall))
      let calls2 := preCalls ++ dupStep.2 ++ slugStep.2
      match slugStep.1 with
      | some pid =>
        match env.updateResult pid with
        | .ok (i, st) =>
          mkOk rowNumber baseTitle "updated" i st
            { server1 with posts := server1.posts.map (fun p =>
                if p.id = pid then
                  { p with
                      title := postData.title
                      status := st
                      slug := (match postData.slug with | some s => s | none => p.slug) }
                else p) }
            (calls2 ++ [.updatePost pid])
        | .error e => mkFail rowNumber baseTitle e server1 (calls2 ++ [.updatePost pid])
      | none =>
        match env.createResult with
        | .ok (i, st) =>
          mkOk rowNumber baseTitle "created" i st
            { server1 with posts :=
                (⟨i, postData.title, (match postData.slug with | some s => s | none => ""), st⟩
                  : Post) :: server1.posts }
            (calls2 ++ [.createPost])
        | .error e => mkFail rowNumber baseTitle e server1 (calls2 ++ [.createPost])

/-- The run summary assembled by `processCsvFile`. -/
structure BatchSummary where
  total : Nat
  success : Nat
  failed : Nat
  results : List RecResult
deriving DecidableEq

/-- JavaScript `!r.error` of the summary counts: `null` and the empty string
are falsy. -/
def isSuccess (r : RecResult) : Bool :=
  match r.error with
  | none => true
  | some e => e = ""

/-- The sequential per-row loop of `processCsvFile`, threading remote state;
row `i` of the list is processed with row number `i + 1`. -/
def runRows (env : Env) (config : Config) :
    List RowData → Nat → Server → List RecResult × Server
  | [], _, srv => ([], srv)
  | row :: rest, i, srv =>
    let out := createOrUpdatePost row i srv env config
    let next := runRows env config rest (i + 1) out.server
    (out.result :: next.1, next.2)

/-- The exported `processCsvFile` function of bulk-upload.js: preflight
connectivity check (a failure throws), empty-CSV check (throws), then the
sequential row loop and the summary.  CSV parsing, client configuration and
the log-file write are external I/O and are not modelled. -/
def processCsvFile (rows : List RowData) (server : Server) (env : Env)
    (config : Config) : Except String BatchSummary :=
  if env.connected = false then
    .error "WordPress REST API is not accessible. Check your configuration."
  else if rows.isEmpty then .error "CSV file is empty"
  else
    let results := (runRows env config rows 1 server).1
    .ok { total := rows.length,
          success := (results.filter isSuccess).length,
          failed := (results.filter (fun r => !isSuccess r)).length,
          results := results }



theorem char_le_iff {a b : Char} : a ≤ b ↔ a.toNat ≤ b.toNat := by
  rw [Char.le_def, UInt32.le_def, BitVec.le_def]
  exact Iff.rfl

theorem char_eq_iff {a b : Char} : a = b ↔ a.toNat = b.toNat := by
  constructor
  · intro h; rw [h]
  · intro h; exact Char.ext (UInt32.toNat.inj h)

theorem toNat_ofNat_valid (n : Nat) (h : n.isValidChar) : (Char.ofNat n).toNat = n := by
  unfold Char.ofNat
  rw [dif_pos h]
  simp [Char.ofNatAux, Char.toNat, UInt32.toNat]

theorem lowerChar_toNat (c : Char) :
    (lowerChar c).toNat = if 65 ≤ c.toNat ∧ c.toNat ≤ 90 then c.toNat + 32 else c.toNat := by
  unfold lowerChar
  have hA : ('A' ≤ c ∧ c ≤ 'Z') ↔ (65 ≤ c.toNat ∧ c.toNat ≤ 90) := by
    rw [char_le_iff, char_le_iff]
    exact Iff.rfl
  by_cases h : 65 ≤ c.toNat ∧ c.toNat ≤ 90
  · rw [if_pos (hA.mpr h), if_pos h]
    exact toNat_ofNat_valid _ (Or.inl (by omega))
  · rw [if_neg (fun hh => h (hA.mp hh)), if_neg h]

theorem lowerChar_idem (c : Char) : lowerChar (lowerChar c) = lowerChar c := by
  rw [char_eq_iff, lowerChar_toNat, lowerChar_toNat]
  split_ifs <;> omega

theorem lowerChar_eq_iff {a : Char} (h1 : ¬(65 ≤ a.toNat ∧ a.toNat ≤ 90))
    (h2 : ¬(97 ≤ a.toNat ∧ a.toNat ≤ 122)) (c : Char) : lowerChar c = a ↔ c = a := by
  constructor
  · intro h
    rw [char_eq_iff] at h ⊢
    rw [lowerChar_toNat] at h
    by_cases hc : 65 ≤ c.toNat ∧ c.toNat ≤ 90
    · rw [if_pos hc] at h; omega
    · rwa [if_neg hc] at h
  · intro h
    subst h
    rw [char_eq_iff, lowerChar_toNat, if_neg h1]

theorem jsWs_iff {c : Char} : jsWs c = true ↔
    (c = ' ' ∨ c = '\t' ∨ c = '\n' ∨ c = '\r' ∨ c = '\x0b' ∨ c = '\x0c') := by
  simp [jsWs, or_assoc]

theorem toNat_le_of_jsWs {c : Char} (h : jsWs c = true) : c.toNat ≤ 32 := by
  rcases jsWs_iff.mp h with h | h | h | h | h | h <;> subst h <;> decide

theorem jsWs_lowerChar (c : Char) : jsWs (lowerChar c) = jsWs c := by
  by_cases h : 65 ≤ c.toNat ∧ c.toNat ≤ 90
  · have hup : jsWs c = false := by
      cases hh : jsWs c
      · rfl
      · have := toNat_le_of_jsWs hh; omega
    have hlo : jsWs (lowerChar c) = false := by
      cases hh : jsWs (lowerChar c)
      · rfl
      · have := toNat_le_of_jsWs hh
        rw [lowerChar_toNat, if_pos h] at this
        omega
    rw [hup, hlo]
  · have : lowerChar c = c := by
      rw [char_eq_iff, lowerChar_toNat, if_neg h]
    rw [this]



/-! Machinery for the idempotence of `normalizeTitle`: boolean invariants that
characterize its output, with one establishment lemma and one fixed-point
lemma per pipeline stage. -/

/-- Does the character `x` occur in the list. -/
def hasChar (x : Char) : List Char → Bool
  | [] => false
  | c :: r => c == x || hasChar x r

/-- Is the head of the list the character `x`. -/
def headIs (x : Char) : List Char → Bool
  | [] => false
  | c :: _ => c == x

/-- Is the head a whitespace character. -/
def headWs : List Char → Bool
  | [] => false
  | c :: _ => jsWs c

/-- No `<` is followed (anywhere later) by a `>`: exactly the strings on which
the tag-stripping regex `<[^>]*>` has no match. -/
def ltOk : List Char → Bool
  | [] => true
  | c :: r => (if c = '<' then !hasChar '>' r else true) && ltOk r

/-- Every `&` is immediately followed by `;` or has no `;` anywhere after it:
exactly the strings on which `&[^;]+;` (and hence every specific entity
pattern) has no match. -/
def ampOk : List Char → Bool
  | [] => true
  | c :: r => (if c = '&' then (headIs ';' r || !hasChar ';' r) else true) && ampOk r

/-- Every whitespace character is a plain space not followed by whitespace. -/
def wsOk : List Char → Bool
  | [] => true
  | c :: r => (if jsWs c then ((c == ' ') && !headWs r) else true) && wsOk r

theorem hasChar_append (x : Char) (a b : List Char) :
    hasChar x (a ++ b) = (hasChar x a || hasChar x b) := by
  induction a with
  | nil => simp [hasChar]
  | cons c r ih => simp [hasChar, ih, Bool.or_assoc]

theorem hasChar_reverse (x : Char) (l : List Char) :
    hasChar x l.reverse = hasChar x l := by
  induction l with
  | nil => rfl
  | cons c r ih => simp [hasChar, List.reverse_cons, hasChar_append, ih, Bool.or_comm]

theorem stripAux_some_of_no_gt (l : List Char) :
    ∀ acc, hasChar '>' l = false → stripAux (some acc) l = '<' :: acc.reverse ++ l := by
  induction l with
  | nil => intro acc _; simp [stripAux]
  | cons c r ih =>
    intro acc h
    simp [hasChar] at h
    obtain ⟨hc, hr⟩ := h
    simp [stripAux, hc, ih (c :: acc) hr]

theorem ltOk_of_no_gt {l : List Char} (h : hasChar '>' l = false) : ltOk l = true := by
  induction l with
  | nil => rfl
  | cons c r ih =>
    simp [hasChar] at h
    simp [ltOk, h.2, ih h.2]

theorem stripTags_of_ltOk {l : List Char} (h : ltOk l = true) : stripTags l = l := by
  unfold stripTags
  induction l with
  | nil => rfl
  | cons c r ih =>
    by_cases hc : c = '<'
    · subst hc
      rw [ltOk] at h
      simp at h
      obtain ⟨hgt, hr⟩ := h
      simp [stripAux, stripAux_some_of_no_gt r [] hgt]
    · rw [ltOk] at h
      simp [hc] at h
      simp [stripAux, hc, ih h]

theorem ltOk_stripAux (l : List Char) :
    (∀ acc, hasChar '>' acc = false → ltOk (stripAux (some acc) l) = true) ∧
      ltOk (stripAux none l) = true := by
  induction l with
  | nil =>
    constructor
    · intro acc hacc
      apply ltOk_of_no_gt
      simp [stripAux, hasChar, hasChar_reverse, hacc]
    · rfl
  | cons c r ih =>
    constructor
    · intro acc hacc
      by_cases hc : c = '>'
      · simpa [stripAux, hc] using ih.2
      · have : hasChar '>' (c :: acc) = false := by simp [hasChar, hc, hacc]
        simpa [stripAux, hc] using ih.1 (c :: acc) this
    · by_cases hc : c = '<'
      · simpa [stripAux, hc] using ih.1 [] rfl
      · have := ih.2
        simp [stripAux, hc, ltOk, this]

theorem ltOk_stripTags (l : List Char) : ltOk (stripTags l) = true :=
  (ltOk_stripAux l).2


/-- Does the literal pattern `p :: ps` occur somewhere in the list. -/
def occursAt (p : Char) (ps : List Char) : List Char → Bool
  | [] => false
  | c :: r => (c == p && ps.isPrefixOf r) || occursAt p ps r

theorem replAux_of_not_occurs {p : Char} {ps repl l : List Char}
    (h : occursAt p ps l = false) : replAux p ps repl 0 l = l := by
  induction l with
  | nil => rfl
  | cons c r ih =>
    simp [occursAt] at h
    have hcond : ¬(c = p ∧ ps.isPrefixOf r = true) := by
      intro ⟨h1, h2⟩
      exact absurd (h.1 h1) (by simp [h2])
    rw [replAux, if_neg hcond, ih h.2]

theorem hasChar_replAux {x p : Char} {ps repl : List Char}
    (hrepl : hasChar x repl = false) :
    ∀ (l : List Char) (n : Nat), hasChar x l = false →
      hasChar x (replAux p ps repl n l) = false := by
  intro l
  induction l with
  | nil => intro n _; cases n <;> simp [replAux, hasChar]
  | cons c r ih =>
    intro n h
    simp [hasChar] at h
    cases n with
    | succ m => simpa [replAux] using ih m h.2
    | zero =>
      by_cases hc : c = p ∧ ps.isPrefixOf r
      · simp only [replAux, if_pos hc, hasChar_append]
        rw [hrepl, ih ps.length h.2]
        rfl
      · simp only [replAux, if_neg hc]
        simp [hasChar, h.1, ih 0 h.2]

theorem ltOk_append_no_lt {a b : List Char} (ha : hasChar '<' a = false)
    (hb : ltOk b = true) : ltOk (a ++ b) = true := by
  induction a with
  | nil => simpa using hb
  | cons c r ih =>
    simp [hasChar] at ha
    simp [ltOk, ha.1, ih ha.2]

theorem ltOk_replAux {p : Char} {ps repl : List Char}
    (hlt : hasChar '<' repl = false) (hgt : hasChar '>' repl = false) :
    ∀ (l : List Char) (n : Nat), ltOk l = true →
      ltOk (replAux p ps repl n l) = true := by
  intro l
  induction l with
  | nil => intro n _; cases n <;> rfl
  | cons c r ih =>
    intro n h
    rw [ltOk] at h
    simp only [Bool.and_eq_true] at h
    obtain ⟨hhead, htail⟩ := h
    cases n with
    | succ m => simpa [replAux] using ih m htail
    | zero =>
      by_cases hc : c = p ∧ ps.isPrefixOf r
      · rw [replAux, if_pos hc]
        exact ltOk_append_no_lt hlt (ih ps.length htail)
      · rw [replAux, if_neg hc, ltOk]
        simp only [Bool.and_eq_true]
        refine ⟨?_, ih 0 htail⟩
        by_cases hlt2 : c = '<'
        · rw [if_pos hlt2]
          rw [if_pos hlt2] at hhead
          simp only [Bool.not_eq_true'] at hhead ⊢
          exact hasChar_replAux hgt r 0 hhead
        · rw [if_neg hlt2]


theorem hasChar_eq_false_iff {x : Char} {l : List Char} :
    hasChar x l = false ↔ ∀ c ∈ l, c ≠ x := by
  induction l with
  | nil => simp [hasChar]
  | cons c r ih => simp [hasChar, ih]

theorem occursAt_amp {body : List Char} (hne : body ≠ [])
    (hfree : hasChar ';' body = false) :
    ∀ {l : List Char}, ampOk l = true → occursAt '&' (body ++ [';']) l = false := by
  intro l
  induction l with
  | nil => intro _; rfl
  | cons c r ih =>
    intro h
    rw [ampOk] at h
    simp only [Bool.and_eq_true] at h
    obtain ⟨hhead, htail⟩ := h
    rw [occursAt, ih htail, Bool.or_false]
    by_cases hc : c = '&'
    · subst hc
      rw [if_pos rfl] at hhead
      cases hp : (body ++ [';']).isPrefixOf r
      · simp
      · exfalso
        have hpre : body ++ [';'] <+: r := by
          exact List.isPrefixOf_iff_prefix.mp hp
        obtain ⟨rest, hrest⟩ := hpre
        obtain ⟨b0, bs, hb⟩ := List.exists_cons_of_ne_nil hne
        subst hb
        subst hrest
        have h1 : headIs ';' ((b0 :: bs ++ [';']) ++ rest) = false := by
          have : b0 ≠ ';' := by
            have := hasChar_eq_false_iff.mp hfree
            exact this b0 (by simp)
          simp [headIs, this]
        have h2 : hasChar ';' ((b0 :: bs ++ [';']) ++ rest) = true := by
          have hm : hasChar ';' (b0 :: bs ++ [';']) = true := by
            rw [show b0 :: bs ++ [';'] = (b0 :: bs) ++ [';'] from rfl, hasChar_append]
            simp [hasChar]
          rw [hasChar_append, hm]
          rfl
        rw [h1, h2] at hhead
        simp at hhead
    · simp [hc]

theorem remEntAux_some_of_no_semi {l : List Char} (h : hasChar ';' l = false) :
    ∀ acc, remEntAux (some acc) l = '&' :: acc.reverse ++ l := by
  induction l with
  | nil => intro acc; simp [remEntAux]
  | cons c r ih =>
    intro acc
    simp [hasChar] at h
    simp [remEntAux, h.1, ih h.2 (c :: acc)]

theorem ampOk_of_no_semi {l : List Char} (h : hasChar ';' l = false) : ampOk l = true := by
  induction l with
  | nil => rfl
  | cons c r ih =>
    simp [hasChar] at h
    simp [ampOk, h.2, ih h.2]

theorem removeEntities_of_ampOk {l : List Char} (h : ampOk l = true) :
    removeEntities l = l := by
  unfold removeEntities
  suffices H : ∀ (n : Nat) (l : List Char), l.length ≤ n → ampOk l = true →
      remEntAux none l = l by
    exact H l.length l le_rfl h
  intro n
  induction n with
  | zero =>
    intro l hl _
    rw [Nat.le_zero, List.length_eq_zero] at hl
    subst hl; rfl
  | succ m ih =>
    intro l hl h
    match l with
    | [] => rfl
    | c :: r =>
      rw [ampOk] at h
      simp only [Bool.and_eq_true] at h
      obtain ⟨hhead, htail⟩ := h
      by_cases hc : c = '&'
      · subst hc
        rw [if_pos rfl] at hhead
        rw [remEntAux, if_pos rfl]
        rcases Bool.or_eq_true_iff.mp hhead with hsemi | hnos
        · cases r with
          | nil => simp [headIs] at hsemi
          | cons d r2 =>
            have hd : d = ';' := by simpa [headIs] using hsemi
            subst hd
            rw [remEntAux, if_pos rfl]
            have hr2 : ampOk r2 = true := by
              rw [ampOk] at htail
              simp only [Bool.and_eq_true] at htail
              exact htail.2
            have : remEntAux none r2 = r2 := by
              apply ih r2 ?_ hr2
              simp [List.length_cons] at hl
              omega
            rw [this]
        · rw [Bool.not_eq_true'] at hnos
          rw [remEntAux_some_of_no_semi hnos []]
          rfl
      · rw [remEntAux, if_neg hc]
        have : remEntAux none r = r := by
          apply ih r ?_ htail
          simp [List.length_cons] at hl
          omega
        rw [this]


theorem ampOk_remEntAux (l : List Char) :
    (∀ acc, hasChar ';' acc = false → ampOk (remEntAux (some acc) l) = true) ∧
      ampOk (remEntAux none l) = true := by
  induction l with
  | nil =>
    constructor
    · intro acc hacc
      have hrev : hasChar ';' acc.reverse = false := by rw [hasChar_reverse]; exact hacc
      simp [remEntAux, ampOk, headIs, hrev, ampOk_of_no_semi hrev]
    · rfl
  | cons c r ih =>
    constructor
    · intro acc hacc
      by_cases hc : c = ';'
      · subst hc
        cases acc with
        | nil => simp [remEntAux, ampOk, headIs, ih.2]
        | cons a as => simpa [remEntAux] using ih.2
      · have : hasChar ';' (c :: acc) = false := by simp [hasChar, hc, hacc]
        simpa [remEntAux, hc] using ih.1 (c :: acc) this
    · by_cases hc : c = '&'
      · subst hc
        simpa [remEntAux] using ih.1 [] rfl
      · simp [remEntAux, hc, ampOk, ih.2]

theorem remEntAux_sublist (l : List Char) :
    (∀ acc, List.Sublist (remEntAux (some acc) l) ('&' :: acc.reverse ++ l)) ∧
      List.Sublist (remEntAux none l) l := by
  induction l with
  | nil =>
    constructor
    · intro acc; simp [remEntAux]
    · simp [remEntAux]
  | cons c r ih =>
    constructor
    · intro acc
      by_cases hc : c = ';'
      · subst hc
        cases acc with
        | nil =>
          simp only [remEntAux, if_pos, List.reverse_nil, List.nil_append]
          exact (ih.2.cons₂ ';').cons₂ '&'
        | cons a as =>
          simp only [remEntAux, if_pos]
          refine List.Sublist.trans ih.2 ?_
          refine List.Sublist.trans (List.sublist_cons_self ';' r) ?_
          exact List.sublist_append_right _ _
      · simp only [remEntAux, if_neg hc]
        have he : '&' :: (c :: acc).reverse ++ r = '&' :: acc.reverse ++ c :: r := by
          simp
        exact he ▸ ih.1 (c :: acc)
    · by_cases hc : c = '&'
      · subst hc
        simpa [remEntAux] using ih.1 []
      · simp only [remEntAux, if_neg hc]
        exact ih.2.cons₂ c

theorem hasChar_sublist {x : Char} {a b : List Char} (h : List.Sublist a b)
    (hb : hasChar x b = false) : hasChar x a = false := by
  induction h with
  | slnil => rfl
  | cons c _ ih =>
    rw [hasChar] at hb
    simp only [Bool.or_eq_false_iff] at hb
    exact ih hb.2
  | cons₂ c h ih =>
    rw [hasChar] at hb ⊢
    simp only [Bool.or_eq_false_iff] at hb ⊢
    exact ⟨hb.1, ih hb.2⟩

theorem ltOk_sublist {a b : List Char} (h : List.Sublist a b) (hb : ltOk b = true) :
    ltOk a = true := by
  induction h with
  | slnil => rfl
  | cons c _ ih =>
    rw [ltOk] at hb
    simp only [Bool.and_eq_true] at hb
    exact ih hb.2
  | cons₂ c h ih =>
    rw [ltOk] at hb ⊢
    simp only [Bool.and_eq_true] at hb ⊢
    refine ⟨?_, ih hb.2⟩
    by_cases hc : c = '<'
    · rw [if_pos hc] at hb ⊢
      simp only [Bool.not_eq_true'] at hb ⊢
      exact hasChar_sublist h hb.1
    · rw [if_neg hc]

theorem ltOk_removeEntities {l : List Char} (h : ltOk l = true) :
    ltOk (removeEntities l) = true :=
  ltOk_sublist (remEntAux_sublist l).2 h

theorem headWs_collapseAux_true (l : List Char) : headWs (collapseAux true l) = false := by
  induction l with
  | nil => rfl
  | cons c r ih =>
    by_cases hc : jsWs c
    · simpa [collapseAux, hc] using ih
    · simp [collapseAux, hc, headWs]

theorem hasChar_collapseAux {x : Char} (hx : x ≠ ' ') :
    ∀ (l : List Char) (b : Bool), hasChar x l = false →
      hasChar x (collapseAux b l) = false := by
  intro l
  induction l with
  | nil => intro b _; cases b <;> rfl
  | cons c r ih =>
    intro b h
    rw [hasChar] at h
    simp only [Bool.or_eq_false_iff] at h
    by_cases hc : jsWs c
    · cases b with
      | true => simpa [collapseAux, hc] using ih true h.2
      | false =>
        simp only [collapseAux, hc, if_true, hasChar]
        simp only [Bool.or_eq_false_iff]
        constructor
        · simpa using fun hh => hx (by rw [hh])
        · exact ih true h.2
    · simp only [collapseAux, hc, if_false, hasChar]
      simp only [Bool.or_eq_false_iff]
      exact ⟨h.1, ih false h.2⟩


theorem collapseAux_of_wsOk (l : List Char) (h : wsOk l = true) :
    collapseAux false l = l ∧ (headWs l = false → collapseAux true l = l) := by
  induction l with
  | nil => exact ⟨rfl, fun _ => rfl⟩
  | cons c r ih =>
    rw [wsOk] at h
    simp only [Bool.and_eq_true] at h
    obtain ⟨hhead, htail⟩ := h
    obtain ⟨ih1, ih2⟩ := ih htail
    by_cases hc : jsWs c
    · rw [if_pos hc] at hhead
      simp only [Bool.and_eq_true, beq_iff_eq, Bool.not_eq_true'] at hhead
      obtain ⟨hsp, hnext⟩ := hhead
      constructor
      · rw [show collapseAux false (c :: r) = ' ' :: collapseAux true r from by
          simp [collapseAux, hc]]
        rw [ih2 hnext, hsp]
      · intro hws
        rw [headWs] at hws
        rw [hc] at hws
        simp at hws
    · constructor
      · simp [collapseAux, hc, ih1]
      · intro _
        simp [collapseAux, hc, ih1]

theorem collapseWs_of_wsOk {l : List Char} (h : wsOk l = true) : collapseWs l = l :=
  (collapseAux_of_wsOk l h).1

theorem wsOk_collapseAux (l : List Char) :
    wsOk (collapseAux false l) = true ∧ wsOk (collapseAux true l) = true := by
  induction l with
  | nil => exact ⟨rfl, rfl⟩
  | cons c r ih =>
    by_cases hc : jsWs c
    · constructor
      · have hx : jsWs ' ' = true := by decide
        simp only [collapseAux, hc, if_true, wsOk, hx]
        simp [headWs_collapseAux_true r, ih.2]
      · simpa [collapseAux, hc] using ih.2
    · constructor <;> simp [collapseAux, hc, wsOk, ih.1]

theorem wsOk_collapseWs (l : List Char) : wsOk (collapseWs l) = true :=
  (wsOk_collapseAux l).1

theorem ampOk_collapseAux :
    ∀ (l : List Char) (b : Bool), ampOk l = true → ampOk (collapseAux b l) = true := by
  intro l
  induction l with
  | nil => intro b _; cases b <;> rfl
  | cons c r ih =>
    intro b h
    rw [ampOk] at h
    simp only [Bool.and_eq_true] at h
    obtain ⟨hhead, htail⟩ := h
    by_cases hc : jsWs c
    · have hcamp : c ≠ '&' := by
        intro hh
        subst hh
        exact absurd hc (by decide)
      cases b with
      | true => simpa [collapseAux, hc] using ih true htail
      | false =>
        have hs : (' ' : Char) ≠ '&' := by decide
        simp only [collapseAux, hc, if_true, ampOk, if_neg hs, Bool.true_and]
        exact ih true htail
    · rw [show collapseAux b (c :: r) = c :: collapseAux false r from by
        cases b <;> simp [collapseAux, hc]]
      rw [ampOk]
      simp only [Bool.and_eq_true]
      refine ⟨?_, ih false htail⟩
      by_cases hca : c = '&'
      · rw [if_pos hca] at hhead ⊢
        rcases Bool.or_eq_true_iff.mp hhead with hsemi | hnos
        · cases r with
          | nil => simp [headIs] at hsemi
          | cons d r2 =>
            have hd : d = ';' := by simpa [headIs] using hsemi
            subst hd
            have hdws : ¬jsWs ';' := by decide
            simp [collapseAux, hdws, headIs]
        · rw [Bool.not_eq_true'] at hnos
          have : hasChar ';' (collapseAux false r) = false :=
            hasChar_collapseAux (by decide) r false hnos
          simp [this]
      · rw [if_neg hca]
    
theorem ltOk_collapseAux :
    ∀ (l : List Char) (b : Bool), ltOk l = true → ltOk (collapseAux b l) = true := by
  intro l
  induction l with
  | nil => intro b _; cases b <;> rfl
  | cons c r ih =>
    intro b h
    rw [ltOk] at h
    simp only [Bool.and_eq_true] at h
    obtain ⟨hhead, htail⟩ := h
    by_cases hc : jsWs c
    · cases b with
      | true => simpa [collapseAux, hc] using ih true htail
      | false =>
        have hs : (' ' : Char) ≠ '<' := by decide
        simp only [collapseAux, hc, if_true, ltOk, if_neg hs, Bool.true_and]
        exact ih true htail
    · rw [show collapseAux b (c :: r) = c :: collapseAux false r from by
        cases b <;> simp [collapseAux, hc]]
      rw [ltOk]
      simp only [Bool.and_eq_true]
      refine ⟨?_, ih false htail⟩
      by_cases hlt : c = '<'
      · rw [if_pos hlt] at hhead ⊢
        simp only [Bool.not_eq_true'] at hhead ⊢
        exact hasChar_collapseAux (by decide) r false hhead
      · rw [if_neg hlt]


/-- All characters are fixed by lowercasing. -/
def lowOk (l : List Char) : Bool := l.all (fun c => lowerChar c == c)

theorem beq_lower_eq {x : Char} (h1 : ¬(65 ≤ x.toNat ∧ x.toNat ≤ 90))
    (h2 : ¬(97 ≤ x.toNat ∧ x.toNat ≤ 122)) (c : Char) :
    (lowerChar c == x) = (c == x) := by
  rw [Bool.eq_iff_iff]
  simp only [beq_iff_eq]
  exact lowerChar_eq_iff h1 h2 c

theorem hasChar_map_lower {x : Char} (h1 : ¬(65 ≤ x.toNat ∧ x.toNat ≤ 90))
    (h2 : ¬(97 ≤ x.toNat ∧ x.toNat ≤ 122)) (l : List Char) :
    hasChar x (l.map lowerChar) = hasChar x l := by
  induction l with
  | nil => rfl
  | cons c r ih =>
    rw [List.map_cons, hasChar, hasChar, ih, beq_lower_eq h1 h2]

theorem map_lower_of_lowOk {l : List Char} (h : lowOk l = true) :
    l.map lowerChar = l := by
  induction l with
  | nil => rfl
  | cons c r ih =>
    rw [lowOk, List.all_cons] at h
    simp only [Bool.and_eq_true, beq_iff_eq] at h
    rw [List.map_cons, h.1, ih h.2]

theorem lowOk_map_lower (l : List Char) : lowOk (l.map lowerChar) = true := by
  induction l with
  | nil => rfl
  | cons c r ih =>
    rw [List.map_cons, lowOk, List.all_cons]
    simp only [Bool.and_eq_true, beq_iff_eq]
    exact ⟨lowerChar_idem c, ih⟩

theorem ltOk_map_lower {l : List Char} (h : ltOk l = true) :
    ltOk (l.map lowerChar) = true := by
  induction l with
  | nil => rfl
  | cons c r ih =>
    rw [ltOk] at h
    simp only [Bool.and_eq_true] at h
    rw [List.map_cons, ltOk]
    simp only [Bool.and_eq_true]
    refine ⟨?_, ih h.2⟩
    by_cases hc : c = '<'
    · have hl : lowerChar c = '<' := by
        rw [lowerChar_eq_iff (by decide) (by decide)]
        exact hc
      rw [if_pos hl]
      rw [if_pos hc] at h
      rw [hasChar_map_lower (by decide) (by decide)]
      exact h.1
    · have hl : ¬lowerChar c = '<' := by
        rw [lowerChar_eq_iff (by decide) (by decide)]
        exact hc
      rw [if_neg hl]

theorem headIs_map_lower {x : Char} (h1 : ¬(65 ≤ x.toNat ∧ x.toNat ≤ 90))
    (h2 : ¬(97 ≤ x.toNat ∧ x.toNat ≤ 122)) (l : List Char) :
    headIs x (l.map lowerChar) = headIs x l := by
  cases l with
  | nil => rfl
  | cons c r => rw [List.map_cons, headIs, headIs, beq_lower_eq h1 h2]

theorem ampOk_map_lower {l : List Char} (h : ampOk l = true) :
    ampOk (l.map lowerChar) = true := by
  induction l with
  | nil => rfl
  | cons c r ih =>
    rw [ampOk] at h
    simp only [Bool.and_eq_true] at h
    rw [List.map_cons, ampOk]
    simp only [Bool.and_eq_true]
    refine ⟨?_, ih h.2⟩
    by_cases hc : c = '&'
    · have hl : lowerChar c = '&' := by
        rw [lowerChar_eq_iff (by decide) (by decide)]
        exact hc
      rw [if_pos hl]
      rw [if_pos hc] at h
      rw [headIs_map_lower (by decide) (by decide),
        hasChar_map_lower (by decide) (by decide)]
      exact h.1
    · have hl : ¬lowerChar c = '&' := by
        rw [lowerChar_eq_iff (by decide) (by decide)]
        exact hc
      rw [if_neg hl]

theorem headWs_map_lower (l : List Char) : headWs (l.map lowerChar) = headWs l := by
  cases l with
  | nil => rfl
  | cons c r => rw [List.map_cons, headWs, headWs, jsWs_lowerChar]

theorem wsOk_map_lower {l : List Char} (h : wsOk l = true) :
    wsOk (l.map lowerChar) = true := by
  induction l with
  | nil => rfl
  | cons c r ih =>
    rw [wsOk] at h
    simp only [Bool.and_eq_true] at h
    rw [List.map_cons, wsOk]
    simp only [Bool.and_eq_true]
    refine ⟨?_, ih h.2⟩
    by_cases hc : jsWs c = true
    · have hl : jsWs (lowerChar c) = true := by rw [jsWs_lowerChar]; exact hc
      rw [if_pos hl]
      rw [if_pos hc] at h
      rw [beq_lower_eq (by decide) (by decide), headWs_map_lower]
      exact h.1
    · have hl : ¬jsWs (lowerChar c) = true := by rw [jsWs_lowerChar]; exact hc
      rw [if_neg hl]

theorem headWs_dropWhile (l : List Char) : headWs (l.dropWhile jsWs) = false := by
  induction l with
  | nil => rfl
  | cons c r ih =>
    by_cases hc : jsWs c
    · simpa [List.dropWhile_cons, hc] using ih
    · simp [List.dropWhile_cons, hc, headWs]

theorem dropWhile_of_headWs_false {l : List Char} (h : headWs l = false) :
    l.dropWhile jsWs = l := by
  cases l with
  | nil => rfl
  | cons c r =>
    rw [headWs] at h
    simp [List.dropWhile_cons, h]

theorem trimChars_of_trimOk {l : List Char} (h1 : headWs l = false)
    (h2 : headWs l.reverse = false) : trimChars l = l := by
  unfold trimChars
  rw [dropWhile_of_headWs_false h1, dropWhile_of_headWs_false h2, List.reverse_reverse]

theorem headWs_append_ne_nil {a : List Char} (b : List Char) (h : a ≠ []) :
    headWs (a ++ b) = headWs a := by
  cases a with
  | nil => exact absurd rfl h
  | cons c r => rfl

theorem headWs_rev_dropWhile (l : List Char) (h : headWs l.reverse = false) :
    headWs (l.dropWhile jsWs).reverse = false := by
  induction l with
  | nil => rfl
  | cons c r ih =>
    by_cases hc : jsWs c
    · rw [List.dropWhile_cons, if_pos hc]
      cases hr : r with
      | nil =>
        subst hr
        simp [headWs] at h
        rw [h] at hc
        simp at hc
      | cons d r2 =>
        rw [← hr]
        apply ih
        rw [List.reverse_cons, headWs_append_ne_nil [c] (by simp [hr])] at h
        exact h
    · rw [List.dropWhile_cons, if_neg hc]
      exact h

theorem headWs_trimChars (l : List Char) : headWs (trimChars l) = false := by
  unfold trimChars
  apply headWs_rev_dropWhile
  rw [List.reverse_reverse]
  exact headWs_dropWhile _

theorem headWs_reverse_trimChars (l : List Char) :
    headWs (trimChars l).reverse = false := by
  unfold trimChars
  rw [List.reverse_reverse]
  exact headWs_dropWhile _


theorem ltOk_append_right {a b : List Char} (h : ltOk (a ++ b) = true) :
    ltOk b = true := by
  induction a with
  | nil => exact h
  | cons c r ih =>
    rw [List.cons_append, ltOk] at h
    simp only [Bool.and_eq_true] at h
    exact ih h.2

theorem ltOk_append_left {a b : List Char} (h : ltOk (a ++ b) = true) :
    ltOk a = true := by
  induction a with
  | nil => rfl
  | cons c r ih =>
    rw [List.cons_append, ltOk] at h
    simp only [Bool.and_eq_true] at h
    rw [ltOk]
    simp only [Bool.and_eq_true]
    refine ⟨?_, ih h.2⟩
    by_cases hc : c = '<'
    · rw [if_pos hc] at h ⊢
      have := h.1
      simp only [Bool.not_eq_true'] at this ⊢
      rw [hasChar_append] at this
      simp only [Bool.or_eq_false_iff] at this
      exact this.1
    · rw [if_neg hc]

theorem ampOk_append_right {a b : List Char} (h : ampOk (a ++ b) = true) :
    ampOk b = true := by
  induction a with
  | nil => exact h
  | cons c r ih =>
    rw [List.cons_append, ampOk] at h
    simp only [Bool.and_eq_true] at h
    exact ih h.2

theorem ampOk_append_left {a b : List Char} (h : ampOk (a ++ b) = true) :
    ampOk a = true := by
  induction a with
  | nil => rfl
  | cons c r ih =>
    rw [List.cons_append, ampOk] at h
    simp only [Bool.and_eq_true] at h
    rw [ampOk]
    simp only [Bool.and_eq_true]
    refine ⟨?_, ih h.2⟩
    by_cases hc : c = '&'
    · rw [if_pos hc] at h ⊢
      cases r with
      | nil => simp [headIs, hasChar]
      | cons d r2 =>
        rcases Bool.or_eq_true_iff.mp h.1 with hsemi | hnos
        · rw [List.cons_append, headIs] at hsemi
          rw [headIs, hsemi]
          rfl
        · simp only [Bool.not_eq_true'] at hnos
          have h2 : hasChar ';' ((d :: r2) ++ b) = false := hnos
          rw [hasChar_append] at h2
          simp only [Bool.or_eq_false_iff] at h2
          rw [h2.1]
          simp
    · rw [if_neg hc]

theorem wsOk_append_right {a b : List Char} (h : wsOk (a ++ b) = true) :
    wsOk b = true := by
  induction a with
  | nil => exact h
  | cons c r ih =>
    rw [List.cons_append, wsOk] at h
    simp only [Bool.and_eq_true] at h
    exact ih h.2

theorem wsOk_append_left {a b : List Char} (h : wsOk (a ++ b) = true) :
    wsOk a = true := by
  induction a with
  | nil => rfl
  | cons c r ih =>
    rw [List.cons_append, wsOk] at h
    simp only [Bool.and_eq_true] at h
    rw [wsOk]
    simp only [Bool.and_eq_true]
    refine ⟨?_, ih h.2⟩
    by_cases hc : jsWs c = true
    · rw [if_pos hc] at h ⊢
      simp only [Bool.and_eq_true] at h ⊢
      refine ⟨h.1.1, ?_⟩
      cases r with
      | nil => rfl
      | cons d r2 =>
        have := h.1.2
        simp only [headWs] at this ⊢
        exact this
    · rw [if_neg hc]

theorem lowOk_append_right {a b : List Char} (h : lowOk (a ++ b) = true) :
    lowOk b = true := by
  rw [lowOk, List.all_append] at h
  simp only [Bool.and_eq_true] at h
  exact h.2

theorem lowOk_append_left {a b : List Char} (h : lowOk (a ++ b) = true) :
    lowOk a = true := by
  rw [lowOk, List.all_append] at h
  simp only [Bool.and_eq_true] at h
  exact h.1

theorem trim_split (l : List Char) :
    ∃ a b, l = a ++ trimChars l ++ b := by
  refine ⟨l.takeWhile jsWs, ((l.dropWhile jsWs).reverse.takeWhile jsWs).reverse, ?_⟩
  have h2 : l.dropWhile jsWs =
      trimChars l ++ ((l.dropWhile jsWs).reverse.takeWhile jsWs).reverse := by
    unfold trimChars
    conv_lhs => rw [← List.reverse_reverse (l.dropWhile jsWs)]
    rw [← List.reverse_append, List.takeWhile_append_dropWhile]
  rw [List.append_assoc, ← h2, List.takeWhile_append_dropWhile]

theorem ltOk_trimChars {l : List Char} (h : ltOk l = true) :
    ltOk (trimChars l) = true := by
  obtain ⟨a, b, hab⟩ := trim_split l
  rw [hab] at h
  exact ltOk_append_right (ltOk_append_left h)

theorem ampOk_trimChars {l : List Char} (h : ampOk l = true) :
    ampOk (trimChars l) = true := by
  obtain ⟨a, b, hab⟩ := trim_split l
  rw [hab] at h
  exact ampOk_append_right (ampOk_append_left h)

theorem wsOk_trimChars {l : List Char} (h : wsOk l = true) :
    wsOk (trimChars l) = true := by
  obtain ⟨a, b, hab⟩ := trim_split l
  rw [hab] at h
  exact wsOk_append_right (wsOk_append_left h)

theorem lowOk_trimChars {l : List Char} (h : lowOk l = true) :
    lowOk (trimChars l) = true := by
  obtain ⟨a, b, hab⟩ := trim_split l
  rw [hab] at h
  exact lowOk_append_right (lowOk_append_left h)


/-- Invariant characterizing the output of `normalizeChars`: no tag-regex
match, no entity-regex match, collapsed whitespace, lowercase, trimmed. -/
def normalized (l : List Char) : Bool :=
  ltOk l && ampOk l && wsOk l && lowOk l && !headWs l && !headWs l.reverse

theorem ltOk_replaceEnt {pat repl : String} (hlt : hasChar '<' repl.data = false)
    (hgt : hasChar '>' repl.data = false) {l : List Char} (h : ltOk l = true) :
    ltOk (replaceEnt pat repl l) = true := by
  unfold replaceEnt
  cases hp : pat.data with
  | nil => exact h
  | cons p ps => exact ltOk_replAux hlt hgt l 0 h

theorem replaceEnt_amp_eq_self (body : List Char) {pat repl : String}
    (hp : pat.data = '&' :: (body ++ [';'])) (hne : body ≠ [])
    (hfree : hasChar ';' body = false) {l : List Char} (h : ampOk l = true) :
    replaceEnt pat repl l = l := by
  unfold replaceEnt
  rw [hp]
  exact replAux_of_not_occurs (occursAt_amp hne hfree h)

theorem ampOk_removeEntities (l : List Char) : ampOk (removeEntities l) = true :=
  (ampOk_remEntAux l).2

theorem ltOk_collapseWs {l : List Char} (h : ltOk l = true) :
    ltOk (collapseWs l) = true := ltOk_collapseAux l false h

theorem ampOk_collapseWs {l : List Char} (h : ampOk l = true) :
    ampOk (collapseWs l) = true := ampOk_collapseAux l false h

theorem normalized_tail {s7 : List Char} (hlt7 : ltOk s7 = true) :
    normalized (trimChars (List.map lowerChar (collapseWs (removeEntities s7)))) = true := by
  have hltE : ltOk (removeEntities s7) = true := ltOk_removeEntities hlt7
  have hampE : ampOk (removeEntities s7) = true := ampOk_removeEntities s7
  have hltC : ltOk (collapseWs (removeEntities s7)) = true := ltOk_collapseWs hltE
  have hampC : ampOk (collapseWs (removeEntities s7)) = true := ampOk_collapseWs hampE
  have hwsC : wsOk (collapseWs (removeEntities s7)) = true := wsOk_collapseWs _
  have hltM := ltOk_map_lower hltC
  have hampM := ampOk_map_lower hampC
  have hwsM := wsOk_map_lower hwsC
  have hlowM := lowOk_map_lower (collapseWs (removeEntities s7))
  unfold normalized
  rw [ltOk_trimChars hltM, ampOk_trimChars hampM, wsOk_trimChars hwsM,
    lowOk_trimChars hlowM, headWs_trimChars, headWs_reverse_trimChars]
  rfl

theorem normalized_normalizeChars (l : List Char) :
    normalized (normalizeChars l) = true := by
  unfold normalizeChars
  apply normalized_tail
  apply ltOk_replaceEnt (by decide) (by decide)
  apply ltOk_replaceEnt (by decide) (by decide)
  apply ltOk_replaceEnt (by decide) (by decide)
  apply ltOk_replaceEnt (by decide) (by decide)
  apply ltOk_replaceEnt (by decide) (by decide)
  apply ltOk_replaceEnt (by decide) (by decide)
  apply ltOk_replaceEnt (by decide) (by decide)
  exact ltOk_stripTags l

theorem normalizeChars_of_normalized {l : List Char} (h : normalized l = true) :
    normalizeChars l = l := by
  unfold normalized at h
  simp only [Bool.and_eq_true, Bool.not_eq_true'] at h
  obtain ⟨⟨⟨⟨⟨hlt, hamp⟩, hws⟩, hlow⟩, hhead⟩, hrev⟩ := h
  unfold normalizeChars
  rw [show stripTags l = l from stripTags_of_ltOk hlt]
  rw [replaceEnt_amp_eq_self "nbsp".data (by decide) (by decide) (by decide) hamp]
  rw [replaceEnt_amp_eq_self "amp".data (by decide) (by decide) (by decide) hamp]
  rw [replaceEnt_amp_eq_self "quot".data (by decide) (by decide) (by decide) hamp]
  rw [replaceEnt_amp_eq_self "#8217".data (by decide) (by decide) (by decide) hamp]
  rw [replaceEnt_amp_eq_self "#8216".data (by decide) (by decide) (by decide) hamp]
  rw [replaceEnt_amp_eq_self "#39".data (by decide) (by decide) (by decide) hamp]
  rw [replaceEnt_amp_eq_self "#038".data (by decide) (by decide) (by decide) hamp]
  rw [removeEntities_of_ampOk hamp, collapseWs_of_wsOk hws, map_lower_of_lowOk hlow,
    trimChars_of_trimOk hhead hrev]

theorem normalizeChars_idem (l : List Char) :
    normalizeChars (normalizeChars l) = normalizeChars l :=
  normalizeChars_of_normalized (normalized_normalizeChars l)

theorem normalizeTitle_idem (s : String) :
    normalizeTitle (normalizeTitle s) = normalizeTitle s := by
  have h : normalizeTitle (normalizeTitle s) = ⟨normalizeChars (normalizeChars s.data)⟩ := rfl
  rw [h, normalizeChars_idem]
  rfl


/-! Lemmas about the duplicate scan of `findPostByTitle`. -/

theorem scanPages_eq (needle : String) (posts : List Post) {env : Env}
    (hok : ∀ p, env.scanFail p = false) :
    ∀ (fuel k : Nat),
      (scanPages needle posts env (k + 1) fuel).1 =
        (((posts.drop (k * 100)).take (fuel * 100)).find?
          (fun p => normalizeTitle p.title = needle)).map Post.id := by
  intro fuel
  induction fuel with
  | zero => intro k; simp [scanPages]
  | succ m ih =>
    intro k
    rw [scanPages, hok (k + 1)]
    simp only [Bool.false_eq_true, if_false]
    have hpage : pageOf posts (k + 1) = (posts.drop (k * 100)).take 100 := by
      simp [pageOf]
    rw [hpage]
    have hsplit : (posts.drop (k * 100)).take ((m + 1) * 100) =
        (posts.drop (k * 100)).take 100 ++
          ((posts.drop (k * 100)).drop 100).take (m * 100) := by
      rw [show (m + 1) * 100 = 100 + m * 100 from by ring]
      exact List.take_add _ _ _
    by_cases hempty : (posts.drop (k * 100)).take 100 = []
    · rw [if_pos (by simp [hempty])]
      have hdrop : posts.drop (k * 100) = [] := by
        rcases List.take_eq_nil_iff.mp hempty with h1 | h1
        · omega
        · exact h1
      simp [hdrop]
    · rw [if_neg (by simpa using hempty)]
      cases hfind : ((posts.drop (k * 100)).take 100).find?
          (fun p => normalizeTitle p.title = needle) with
      | some p =>
        simp only [hfind]
        rw [hsplit, List.find?_append, hfind]
        rfl
      | none =>
        simp only [hfind]
        by_cases hshort : ((posts.drop (k * 100)).take 100).length < 100
        · rw [if_pos hshort]
          have hlen : (posts.drop (k * 100)).length < 100 := by
            rw [List.length_take] at hshort
            omega
          have hall : (posts.drop (k * 100)).take 100 = posts.drop (k * 100) :=
            List.take_of_length_le (by omega)
          have hall2 : (posts.drop (k * 100)).take ((m + 1) * 100) = posts.drop (k * 100) :=
            List.take_of_length_le (by omega)
          rw [hall2, ← hall, hfind]
          rfl
        · rw [if_neg hshort]
          have hrec := ih (k + 1)
          rw [hsplit, List.find?_append, hfind, Option.none_or]
          cases hsc : scanPages needle posts env (k + 1 + 1) m with
          | mk res calls =>
            rw [hsc] at hrec
            show res = _
            have hd : List.drop 100 (List.drop (k * 100) posts) =
                List.drop ((k + 1) * 100) posts := by
              rw [List.drop_drop]
              congr 1
              ring
            rw [hd]
            exact hrec

theorem scanPages_calls_le (needle : String) (posts : List Post) (env : Env) :
    ∀ (fuel page : Nat), (scanPages needle posts env page fuel).2.length ≤ fuel := by
  intro fuel
  induction fuel with
  | zero => intro page; simp [scanPages]
  | succ m ih =>
    intro page
    rw [scanPages]
    by_cases hf : env.scanFail page = true
    · simp [hf]
    · simp only [Bool.not_eq_true] at hf
      rw [hf]
      simp only [Bool.false_eq_true, if_false]
      by_cases hempty : (pageOf posts page).isEmpty = true
      · simp [hempty]
      · rw [if_neg hempty]
        cases hfind : (pageOf posts page).find? (fun p => normalizeTitle p.title = needle) with
        | some p => simp
        | none =>
          simp only
          by_cases hshort : (pageOf posts page).length < 100
          · simp [hshort]
          · rw [if_neg hshort]
            cases hsc : scanPages needle posts env (page + 1) m with
            | mk res calls =>
              have := ih (page + 1)
              rw [hsc] at this
              simpa using Nat.succ_le_succ this

/-- Semantics of the bounded duplicate scan on a fault-free remote: it returns
the id of the first (most recent) post among the first 1000 whose normalized
title equals the normalized needle, and `none` when there is none there. -/
theorem findPostByTitle_spec (title : String) (posts : List Post) (env : Env)
    (hok : ∀ p, env.scanFail p = false) (ht : jsTrim title ≠ "") :
    (findPostByTitle title posts env).1 =
      ((posts.take 1000).find?
        (fun p => normalizeTitle p.title = normalizeTitle title)).map Post.id := by
  unfold findPostByTitle
  rw [if_neg ht]
  have h := scanPages_eq (normalizeTitle title) posts hok 10 0
  simpa using h


/-! Lemmas about the reconciler `createOrUpdatePost`. -/

theorem trimChars_idem (l : List Char) : trimChars (trimChars l) = trimChars l :=
  trimChars_of_trimOk (headWs_trimChars l) (headWs_reverse_trimChars l)

theorem jsTrim_idem (s : String) : jsTrim (jsTrim s) = jsTrim s := by
  have h : jsTrim (jsTrim s) = ⟨trimChars (trimChars s.data)⟩ := rfl
  rw [h, trimChars_idem]
  rfl

/-- Is the call a write (create or update) on the post collection. -/
def isWriteCall : RemoteCall → Bool
  | .createPost => true
  | .updatePost _ => true
  | _ => false

theorem noWrite_getOrCreateTerm (name taxonomy : String) (st : TaxState) (env : Env) :
    ((getOrCreateTerm name taxonomy st env).2.2.all (fun c => !isWriteCall c)) = true := by
  simp only [getOrCreateTerm]
  split
  · rfl
  · split
    · simp [isWriteCall]
    · split
      · simp [isWriteCall]
      · split <;> simp [isWriteCall]

theorem noWrite_resolveLoop (taxonomy : String) (env : Env) :
    ∀ (names : List String) (st : TaxState),
      ((resolveLoop taxonomy env names st).2.2.all (fun c => !isWriteCall c)) = true := by
  intro names
  induction names with
  | nil => intro st; rfl
  | cons n ns ih =>
    intro st
    simp only [resolveLoop, List.all_append, Bool.and_eq_true]
    exact ⟨noWrite_getOrCreateTerm n taxonomy st env, ih _⟩

theorem noWrite_resolveTerms (termString taxonomy : String) (st : TaxState) (env : Env) :
    ((resolveTerms termString taxonomy st env).2.2.all (fun c => !isWriteCall c)) = true := by
  simp only [resolveTerms]
  split
  · rfl
  · exact noWrite_resolveLoop taxonomy env (labelsOf termString) st

theorem noWrite_downloadImageFromUrl (u : String) (env : Env) :
    ((downloadImageFromUrl u env).2.all (fun c => !isWriteCall c)) = true := by
  simp only [downloadImageFromUrl]
  split <;> simp [isWriteCall]

theorem noWrite_uploadMedia (p : String) (env : Env) :
    ((uploadMedia p env).2.all (fun c => !isWriteCall c)) = true := by
  have hd := noWrite_downloadImageFromUrl (jsTrim p) env
  simp only [uploadMedia]
  split
  · rfl
  · split
    · split
      · exact hd
      · split <;>
          · simp only [List.all_append, Bool.and_eq_true]
            exact ⟨hd, by simp [isWriteCall]⟩
    · split
      · split <;> simp [isWriteCall]
      · rfl

theorem noWrite_findPostBySlug (slug : String) (posts : List Post) (env : Env) :
    ((findPostBySlug slug posts env).2.all (fun c => !isWriteCall c)) = true := by
  simp only [findPostBySlug]
  split
  · rfl
  · split
    · simp [isWriteCall]
    · split <;> simp [isWriteCall]

theorem noWrite_scanPages (needle : String) (posts : List Post) (env : Env) :
    ∀ (fuel page : Nat),
      ((scanPages needle posts env page fuel).2.all (fun c => !isWriteCall c)) = true := by
  intro fuel
  induction fuel with
  | zero => intro page; rfl
  | succ m ih =>
    intro page
    simp only [scanPages]
    split
    · simp [isWriteCall]
    · split
      · simp [isWriteCall]
      · split
        · simp [isWriteCall]
        · split
          · simp [isWriteCall]
          · simpa [isWriteCall] using ih (page + 1)

theorem noWrite_findPostByTitle (title : String) (posts : List Post) (env : Env) :
    ((findPostByTitle title posts env).2.all (fun c => !isWriteCall c)) = true := by
  simp only [findPostByTitle]
  split
  · rfl
  · exact noWrite_scanPages (normalizeTitle title) posts env 10 1


theorem createOrUpdatePost_missing (row : RowData) (rowNumber : Nat) (server : Server)
    (env : Env) (config : Config)
    (h : optTrim row.title = "" ∨ optTrim row.content = "") :
    ((createOrUpdatePost row rowNumber server env config).result.error = some missingTitleMsg ∨
      (createOrUpdatePost row rowNumber server env config).result.error = some missingContentMsg) ∧
      (createOrUpdatePost row rowNumber server env config).result.action = none ∧
      (createOrUpdatePost row rowNumber server env config).calls = [] := by
  by_cases ht : optTrim row.title = ""
  · simp [createOrUpdatePost, ht, mkFail]
  · have hc : optTrim row.content = "" := h.resolve_left ht
    simp [createOrUpdatePost, ht, hc, mkFail]

theorem noWrite_mediaIf (x : String) (env : Env) :
    ((if x = "" then ((none : Option Nat), ([] : List RemoteCall))
      else uploadMedia x env).2.all (fun c => !isWriteCall c)) = true := by
  split
  · rfl
  · exact noWrite_uploadMedia _ _

theorem createOrUpdatePost_duplicate (row : RowData) (rowNumber : Nat) (server : Server)
    (env : Env) (config : Config) (pid : Nat)
    (ht : ¬optTrim row.title = "") (hc : ¬optTrim row.content = "")
    (hscan : (findPostByTitle (optTrim row.title) server.posts env).1 = some pid) :
    (createOrUpdatePost row rowNumber server env config).result.error =
        some (dupMsg (optTrim row.title) pid) ∧
      (createOrUpdatePost row rowNumber server env config).result.action = none ∧
      ((createOrUpdatePost row rowNumber server env config).calls.all
        (fun c => !isWriteCall c)) = true := by
  simp only [createOrUpdatePost, if_neg ht, if_neg hc, hscan]
  refine ⟨rfl, rfl, ?_⟩
  simp only [mkFail, List.all_append, Bool.and_eq_true]
  refine ⟨⟨⟨?_, ?_⟩, ?_⟩, ?_⟩
  · split
    · rfl
    · exact noWrite_resolveTerms _ _ _ _
  · split
    · rfl
    · exact noWrite_resolveTerms _ _ _ _
  · split
    · exact noWrite_mediaIf _ _
    · exact noWrite_uploadMedia _ _
  · exact noWrite_findPostByTitle _ _ _


theorem createOrUpdatePost_update (row : RowData) (rowNumber : Nat) (server : Server)
    (env : Env) (config : Config) (pid i : Nat) (st2 : String)
    (ht : ¬optTrim row.title = "") (hc : ¬optTrim row.content = "")
    (hscan : (findPostByTitle (optTrim row.title) server.posts env).1 = none)
    (hslug : ¬optTrim row.slug = "")
    (hfind : (findPostBySlug (optTrim row.slug) server.posts env).1 = some pid)
    (hupd : env.updateResult pid = .ok (i, st2)) :
    (createOrUpdatePost row rowNumber server env config).result.action = some "updated" ∧
      (createOrUpdatePost row rowNumber server env config).result.postId = some i ∧
      (createOrUpdatePost row rowNumber server env config).result.status = some st2 ∧
      (createOrUpdatePost row rowNumber server env config).result.error = none ∧
      RemoteCall.updatePost pid ∈ (createOrUpdatePost row rowNumber server env config).calls := by
  simp only [createOrUpdatePost, if_neg ht, if_neg hc, if_neg hslug, hscan, hfind, hupd]
  simp [mkOk]

theorem createOrUpdatePost_create (row : RowData) (rowNumber : Nat) (server : Server)
    (env : Env) (config : Config) (i : Nat) (st2 : String)
    (ht : ¬optTrim row.title = "") (hc : ¬optTrim row.content = "")
    (hscan : (findPostByTitle (optTrim row.title) server.posts env).1 = none)
    (hnoslug : optTrim row.slug = "" ∨
      (findPostBySlug (optTrim row.slug) server.posts env).1 = none)
    (hcr : env.createResult = .ok (i, st2)) :
    (createOrUpdatePost row rowNumber server env config).result.action = some "created" ∧
      (createOrUpdatePost row rowNumber server env config).result.postId = some i ∧
      (createOrUpdatePost row rowNumber server env config).result.status = some st2 ∧
      (createOrUpdatePost row rowNumber server env config).result.error = none ∧
      RemoteCall.createPost ∈ (createOrUpdatePost row rowNumber server env config).calls := by
  rcases hnoslug with hs | hs
  · simp only [createOrUpdatePost, if_neg ht, if_neg hc, if_pos hs, hscan, hcr]
    simp [mkOk]
  · by_cases hslug : optTrim row.slug = ""
    · simp only [createOrUpdatePost, if_neg ht, if_neg hc, if_pos hslug, hscan, hcr]
      simp [mkOk]
    · simp only [createOrUpdatePost, if_neg ht, if_neg hc, if_neg hslug, hscan, hs, hcr]
      simp [mkOk]


theorem findPostByTitle_scanFail (title : String) (posts : List Post) (env : Env)
    (h : env.scanFail 1 = true) : (findPostByTitle title posts env).1 = none := by
  unfold findPostByTitle
  split
  · rfl
  · simp only [scanPages, h, if_true]

theorem findPostBySlug_slugFail (slug : String) (posts : List Post) (env : Env)
    (h : env.slugFail = true) : (findPostBySlug slug posts env).1 = none := by
  simp only [findPostBySlug, h, if_true]
  split <;> rfl

theorem createOrUpdatePost_rowNumber (row : RowData) (i : Nat) (srv : Server)
    (env : Env) (config : Config) :
    (createOrUpdatePost row i srv env config).result.rowNumber = i := by
  simp only [createOrUpdatePost]
  split
  · rfl
  · split
    · rfl
    · split
      · rfl
      · split
        · split <;> rfl
        · split <;> rfl

theorem runRows_spec (env : Env) (config : Config) :
    ∀ (rows : List RowData) (i : Nat) (srv : Server),
      (runRows env config rows i srv).1.length = rows.length ∧
      ∀ j (hj : j < (runRows env config rows i srv).1.length),
        ((runRows env config rows i srv).1.get ⟨j, hj⟩).rowNumber = i + j := by
  intro rows
  induction rows with
  | nil =>
    intro i srv
    refine ⟨rfl, fun j hj => absurd hj (by simp [runRows])⟩
  | cons row rest ih =>
    intro i srv
    constructor
    · simpa [runRows] using
        (ih (i + 1) (createOrUpdatePost row i srv env config).server).1
    · intro j hj
      cases j with
      | zero =>
        simpa [runRows] using createOrUpdatePost_rowNumber row i srv env config
      | succ k =>
        have hlen := (ih (i + 1) (createOrUpdatePost row i srv env config).server).1
        have hk : k < (runRows env config rest (i + 1)
            (createOrUpdatePost row i srv env config).server).1.length := by
          simp [runRows] at hj
          omega
        have := (ih (i + 1) (createOrUpdatePost row i srv env config).server).2 k hk
        simp only [runRows, List.get_cons_succ]
        rw [this]
        omega

theorem filter_length_split (l : List RecResult) :
    (l.filter isSuccess).length + (l.filter (fun r => !isSuccess r)).length = l.length := by
  induction l with
  | nil => rfl
  | cons r rest ih =>
    by_cases h : isSuccess r = true
    · simp [List.filter_cons, h]
      omega
    · simp only [Bool.not_eq_true] at h
      simp [List.filter_cons, h]
      omega

theorem processCsvFile_spec (rows : List RowData) (server : Server) (env : Env)
    (config : Config) (hconn : env.connected = true) (hne : rows ≠ []) :
    ∃ s, processCsvFile rows server env config = Except.ok s ∧
      s.total = rows.length ∧
      s.results.length = rows.length ∧
      (∀ j (hj : j < s.results.length), (s.results.get ⟨j, hj⟩).rowNumber = j + 1) ∧
      s.success + s.failed = rows.length := by
  have hnotFalse : ¬env.connected = false := by simp [hconn]
  have hnotEmpty : ¬rows.isEmpty = true := by
    cases rows with
    | nil => exact absurd rfl hne
    | cons a b => simp
  refine ⟨⟨rows.length, ((runRows env config rows 1 server).1.filter isSuccess).length,
      ((runRows env config rows 1 server).1.filter (fun r => !isSuccess r)).length,
      (runRows env config rows 1 server).1⟩, ?_, rfl, ?_, ?_, ?_⟩
  · unfold processCsvFile
    rw [if_neg hnotFalse, if_neg hnotEmpty]
  · exact (runRows_spec env config rows 1 server).1
  · intro j hj
    have := (runRows_spec env config rows 1 server).2 j hj
    rw [this]
    omega
  · have h1 := (runRows_spec env config rows 1 server).1
    have := filter_length_split (runRows env config rows 1 server).1
    simp only [this]
    exact h1


/-! Spec-side description of the term resolver (for claim C9). -/

/-- Modelled from the spec (section 4.2), to be compared with `resolveTerms`:
for each label in order, search the current taxonomy for a case-insensitive
exact name match; on a hit reuse its identifier, on a miss create the term and
use the new identifier; a label whose search or create call fails is skipped
(its effects discarded). -/
def specResolve (taxonomy : String) (env : Env) :
    List String → TaxState → List Nat × TaxState
  | [], st => ([], st)
  | n :: ns, st =>
    if env.termSearchFail taxonomy n then specResolve taxonomy env ns st
    else
      match st.terms.find? (fun t => lowerStr t.name = lowerStr n) with
      | some t =>
        let rest := specResolve taxonomy env ns st
        (t.id :: rest.1, rest.2)
      | none =>
        if env.termCreateFail taxonomy n then specResolve taxonomy env ns st
        else
          let rest := specResolve taxonomy env ns
            ⟨st.terms ++ [⟨st.nextId, n⟩], st.nextId + 1⟩
          (st.nextId :: rest.1, rest.2)

theorem infixOf_self (l : List Char) : infixOf l l = true := by
  cases l with
  | nil => rfl
  | cons c t =>
    rw [infixOf]
    have : List.isPrefixOf (c :: t) (c :: t) = true := by
      rw [List.isPrefixOf_iff_prefix]
    simp [this]

theorem searchResults_find (st : TaxState) (n : String) :
    (searchResults st n).find? (fun t => lowerStr t.name = lowerStr n) =
      st.terms.find? (fun t => lowerStr t.name = lowerStr n) := by
  obtain ⟨terms, nextId⟩ := st
  induction terms with
  | nil => rfl
  | cons t ts ih =>
    show (List.filter _ (t :: ts)).find? _ = _
    rw [List.filter_cons]
    by_cases hex : lowerStr t.name = lowerStr n
    · have hcont : infixOf (lowerStr n).data (lowerStr t.name).data = true := by
        rw [hex]
        exact infixOf_self _
      rw [if_pos (by simpa using hcont)]
      rw [List.find?_cons_of_pos _ (by simpa using hex),
        List.find?_cons_of_pos _ (by simpa using hex)]
    · rw [List.find?_cons_of_neg _ (by simpa using hex)]
      by_cases hcont : infixOf (lowerStr n).data (lowerStr t.name).data = true
      · rw [if_pos (by simpa using hcont)]
        rw [List.find?_cons_of_neg _ (by simpa using hex)]
        exact ih
      · rw [if_neg (by simpa using hcont)]
        exact ih

theorem resolveLoop_eq_spec (taxonomy : String) (env : Env) :
    ∀ (names : List String) (st : TaxState),
      (∀ n ∈ names, jsTrim n = n ∧ n ≠ "") →
      (resolveLoop taxonomy env names st).1 = (specResolve taxonomy env names st).1 ∧
        (resolveLoop taxonomy env names st).2.1 = (specResolve taxonomy env names st).2 := by
  intro names
  induction names with
  | nil => intro st _; exact ⟨rfl, rfl⟩
  | cons n ns ih =>
    intro st hmem
    obtain ⟨htrim, hne⟩ := hmem n (by simp)
    have hrest : ∀ m ∈ ns, jsTrim m = m ∧ m ≠ "" := fun m hm => hmem m (by simp [hm])
    simp only [resolveLoop, specResolve, getOrCreateTerm, htrim, if_neg hne]
    by_cases hsf : env.termSearchFail taxonomy n = true
    · simp only [hsf, if_true]
      exact ih st hrest
    · simp only [hsf, Bool.false_eq_true, if_false]
      rw [searchResults_find]
      cases hfind : st.terms.find? (fun t => lowerStr t.name = lowerStr n) with
      | some t =>
        have := ih st hrest
        simp only [this.1, this.2]
        exact ⟨trivial, trivial⟩
      | none =>
        by_cases hcf : env.termCreateFail taxonomy n = true
        · simp only [hcf, if_true]
          exact ih st hrest
        · simp only [hcf, Bool.false_eq_true, if_false]
          have := ih ⟨st.terms ++ [⟨st.nextId, n⟩], st.nextId + 1⟩ hrest
          simp only [this.1, this.2]
          exact ⟨trivial, trivial⟩

theorem labelsOf_mem {s n : String} (h : n ∈ labelsOf s) : jsTrim n = n ∧ n ≠ "" := by
  unfold labelsOf at h
  rw [List.mem_filter] at h
  obtain ⟨hmap, hne⟩ := h
  rw [List.mem_map] at hmap
  obtain ⟨l, _, hl⟩ := hmap
  constructor
  · rw [← hl, jsTrim_idem]
  · simpa using hne

theorem all_ws_of_trim_nil {l : List Char} (h : trimChars l = []) : ∀ c ∈ l, jsWs c := by
  unfold trimChars at h
  rw [List.reverse_eq_nil_iff, List.dropWhile_eq_nil_iff] at h
  have hX : l.dropWhile jsWs = [] := by
    cases hd : l.dropWhile jsWs with
    | nil => rfl
    | cons c r =>
      exfalso
      have hhead : headWs (l.dropWhile jsWs) = false := headWs_dropWhile l
      rw [hd, headWs] at hhead
      have : c ∈ (l.dropWhile jsWs).reverse := by simp [hd]
      have := h c this
      rw [hhead] at this
      simp at this
  rw [List.dropWhile_eq_nil_iff] at hX
  exact hX

theorem splitComma_all_ws {l : List Char} (h : ∀ c ∈ l, jsWs c) :
    splitComma l = [l] := by
  induction l with
  | nil => rfl
  | cons c r ih =>
    have hc : jsWs c := h c (by simp)
    have hcomma : ¬c = ',' := by
      intro hh
      subst hh
      exact absurd hc (by decide)
    rw [splitComma, if_neg hcomma, ih (fun d hd => h d (by simp [hd]))]

theorem labelsOf_of_blank {ts : String} (h : jsTrim ts = "") : labelsOf ts = [] := by
  have hws : ∀ c ∈ ts.data, jsWs c := by
    apply all_ws_of_trim_nil
    have : (jsTrim ts).data = trimChars ts.data := rfl
    rw [h] at this
    exact this.symm
  unfold labelsOf
  rw [splitComma_all_ws hws]
  have : jsTrim ⟨ts.data⟩ = "" := h
  simp [this]

/-- Refinement: the implementation's resolver computes exactly the spec-side
resolution of its per-occurrence label list (one identifier per non-empty
trimmed label occurrence, in order, failures skipped). -/
theorem resolveTerms_eq_spec (termString taxonomy : String) (st : TaxState) (env : Env) :
    (resolveTerms termString taxonomy st env).1 =
      (specResolve taxonomy env (labelsOf termString) st).1 ∧
      (resolveTerms termString taxonomy st env).2.1 =
        (specResolve taxonomy env (labelsOf termString) st).2 := by
  unfold resolveTerms
  by_cases hb : jsTrim termString = ""
  · rw [if_pos hb, labelsOf_of_blank hb]
    exact ⟨rfl, rfl⟩
  · rw [if_neg hb]
    exact resolveLoop_eq_spec taxonomy env (labelsOf termString) st
      (fun n hn => labelsOf_mem hn)


/-! Concrete servers and environments used by the witnesses and
counterexamples. -/

/-- A fault-free remote environment. -/
def benignEnv : Env :=
  ⟨true, fun _ => false, false, fun _ _ => false, fun _ _ => false,
    fun _ => none, fun _ => false, fun _ => "", some 77,
    .ok (501, "draft"), fun _ => .ok (601, "publish"), fun _ => true⟩

def demoConfig : Config := ⟨"draft", 300⟩

def demoPosts : List Post := [⟨9, "Hello World", "hello-world", "pending"⟩]

def demoServer : Server := ⟨demoPosts, ⟨[], 1⟩, ⟨[], 1⟩⟩

/-- Helper: `optTrim` output is already trimmed. -/
theorem jsTrim_optTrim (o : Option String) : jsTrim (optTrim o) = optTrim o := by
  cases o with
  | none => rfl
  | some s => exact jsTrim_idem s

theorem findPostByTitle_calls_le (title : String) (posts : List Post) (env : Env) :
    (findPostByTitle title posts env).2.length ≤ 10 := by
  unfold findPostByTitle
  split
  · simp
  · exact scanPages_calls_le _ posts env 10 1

/-- C5: the duplicate scan terminates with bounded cost: on a fault-free
remote it fetches at most 10 pages and returns exactly the first match among
the 1000 most recent resources — in particular, past the 10-page ceiling it
reports no duplicate instead of continuing. -/
theorem claim_C5_scan_bounded (title : String) (posts : List Post) (env : Env)
    (hok : ∀ p, env.scanFail p = false) (ht : jsTrim title ≠ "") :
    (findPostByTitle title posts env).1 =
      ((posts.take 1000).find?
        (fun p => normalizeTitle p.title = normalizeTitle title)).map Post.id ∧
      (findPostByTitle title posts env).2.length ≤ 10 :=
  ⟨findPostByTitle_spec title posts env hok ht, findPostByTitle_calls_le title posts env⟩

theorem claim_C5_witness :
    (findPostByTitle "Hello" demoPosts benignEnv).1 =
      ((demoPosts.take 1000).find?
        (fun p => normalizeTitle p.title = normalizeTitle "Hello")).map Post.id ∧
      (findPostByTitle "Hello" demoPosts benignEnv).2.length ≤ 10 :=
  claim_C5_scan_bounded "Hello" demoPosts benignEnv (fun _ => rfl) (by decide)

/-- C6: title normalization is idempotent on every string, and the spec's
concrete example normalizes as stated. -/
theorem claim_C6_normalize_idempotent :
    (∀ s : String, normalizeTitle (normalizeTitle s) = normalizeTitle s) ∧
      normalizeTitle "<b>Weekend Brunch</b> &amp; More" = "weekend brunch & more" :=
  ⟨normalizeTitle_idem, by decide⟩

/-- C4: a row with a missing or blank `title` or `content` fails with a
missing-field error, takes no action, and issues zero remote calls. -/
theorem claim_C4_missing_fields (row : RowData) (rowNumber : Nat) (server : Server)
    (env : Env) (config : Config)
    (h : optTrim row.title = "" ∨ optTrim row.content = "") :
    ((createOrUpdatePost row rowNumber server env config).result.error =
        some missingTitleMsg ∨
      (createOrUpdatePost row rowNumber server env config).result.error =
        some missingContentMsg) ∧
      (createOrUpdatePost row rowNumber server env config).result.action = none ∧
      (createOrUpdatePost row rowNumber server env config).calls = [] :=
  createOrUpdatePost_missing row rowNumber server env config h

theorem claim_C4_witness :
    ((createOrUpdatePost ⟨some "A title", some "   ", none, none, none, none, none,
        none, none, none⟩ 1 demoServer benignEnv demoConfig).result.error =
        some missingTitleMsg ∨
      (createOrUpdatePost ⟨some "A title", some "   ", none, none, none, none, none,
        none, none, none⟩ 1 demoServer benignEnv demoConfig).result.error =
        some missingContentMsg) ∧
      (createOrUpdatePost ⟨some "A title", some "   ", none, none, none, none, none,
        none, none, none⟩ 1 demoServer benignEnv demoConfig).result.action = none ∧
      (createOrUpdatePost ⟨some "A title", some "   ", none, none, none, none, none,
        none, none, none⟩ 1 demoServer benignEnv demoConfig).calls = [] :=
  claim_C4_missing_fields _ 1 demoServer benignEnv demoConfig (Or.inr (by decide))


def fillerPost : Post := ⟨1, "x", "", "publish"⟩

def farPost : Post := ⟨42, "hello", "", "draft"⟩

/-- A remote collection of 1001 resources whose duplicate sits just past the
scan's 10-page ceiling. -/
def bigServer : Server := ⟨List.replicate 1000 fillerPost ++ [farPost], ⟨[], 1⟩, ⟨[], 1⟩⟩

def dupRow : RowData :=
  ⟨some "hello", some "body", none, none, none, none, none, none, none, none⟩

set_option maxRecDepth 100000 in
/-- C1 counterexample: a valid row whose normalized title equals that of an
existing remote resource (the 1001st most recent) is nevertheless created
without error, because the duplicate scan gives up after 1000 resources. -/
theorem claim_C1_counterexample :
    (∃ p ∈ bigServer.posts,
        normalizeTitle p.title = normalizeTitle (optTrim dupRow.title)) ∧
      (createOrUpdatePost dupRow 1 bigServer benignEnv demoConfig).result.action =
        some "created" ∧
      (createOrUpdatePost dupRow 1 bigServer benignEnv demoConfig).result.error = none := by
  refine ⟨⟨farPost, List.mem_append_right _ (by simp), by decide⟩, ?_, ?_⟩ <;> decide

/-- C1 (amended): for a valid row whose normalized title exactly equals the
normalized title of one of the 1000 most recent remote resources, a fault-free
reconciliation fails with the duplicate-detected message, takes no action, and
issues no create or update call — regardless of the matching resource's
status (the matching post is arbitrary). -/
theorem claim_C1_amended (row : RowData) (rowNumber : Nat) (server : Server)
    (env : Env) (config : Config) (p : Post)
    (hok : ∀ q, env.scanFail q = false)
    (ht : ¬optTrim row.title = "") (hc : ¬optTrim row.content = "")
    (hfind : (server.posts.take 1000).find?
        (fun q => normalizeTitle q.title = normalizeTitle (optTrim row.title)) = some p) :
    (createOrUpdatePost row rowNumber server env config).result.error =
        some (dupMsg (optTrim row.title) p.id) ∧
      (createOrUpdatePost row rowNumber server env config).result.action = none ∧
      ((createOrUpdatePost row rowNumber server env config).calls.all
        (fun c => !isWriteCall c)) = true := by
  have ht2 : jsTrim (optTrim row.title) ≠ "" := by
    rw [jsTrim_optTrim]
    exact ht
  have hscan : (findPostByTitle (optTrim row.title) server.posts env).1 = some p.id := by
    rw [findPostByTitle_spec _ _ _ hok ht2, hfind]
    rfl
  exact createOrUpdatePost_duplicate row rowNumber server env config p.id ht hc hscan

theorem claim_C1_witness :
    (createOrUpdatePost ⟨some " hello  WORLD ", some "body", none, none, none, none,
        none, none, none, none⟩ 1 demoServer benignEnv demoConfig).result.error =
        some (dupMsg (optTrim (some " hello  WORLD ")) 9) ∧
      (createOrUpdatePost ⟨some " hello  WORLD ", some "body", none, none, none, none,
        none, none, none, none⟩ 1 demoServer benignEnv demoConfig).result.action = none ∧
      ((createOrUpdatePost ⟨some " hello  WORLD ", some "body", none, none, none, none,
        none, none, none, none⟩ 1 demoServer benignEnv demoConfig).calls.all
        (fun c => !isWriteCall c)) = true := by
  have h := claim_C1_amended ⟨some " hello  WORLD ", some "body", none, none, none, none,
    none, none, none, none⟩ 1 demoServer benignEnv demoConfig ⟨9, "Hello World",
    "hello-world", "pending"⟩ (fun _ => rfl) (by decide) (by decide) (by decide)
  exact h


def failUpdEnv : Env :=
  { benignEnv with updateResult := fun _ => .error "update rejected by server" }

def slugRow : RowData :=
  ⟨some "New Post", some "body", some "hello-world", none, none, none, none, none,
    none, none⟩

def noSlugRow : RowData :=
  ⟨some "Another Post", some "body", none, none, none, none, none, none, none, none⟩

/-- C2 counterexample: a valid row that passes duplicate detection and whose
slug matches an existing resource is promised `updated` unconditionally by the
claim, but when the server rejects the update call the result is `failed`
(action null, error recorded). -/
theorem claim_C2_counterexample :
    (findPostBySlug (optTrim slugRow.slug) demoServer.posts failUpdEnv).1 = some 9 ∧
      (findPostByTitle (optTrim slugRow.title) demoServer.posts failUpdEnv).1 = none ∧
      (createOrUpdatePost slugRow 1 demoServer failUpdEnv demoConfig).result.action ≠
        some "updated" ∧
      (createOrUpdatePost slugRow 1 demoServer failUpdEnv demoConfig).result.error =
        some "update rejected by server" := by
  decide

/-- C2 (amended): for a valid row that passes duplicate detection, when the
write call succeeds: a slug match yields an update issued against that
resource's identifier and action `updated`; no slug (or no slug match) yields
a create and action `created`. -/
theorem claim_C2_amended (row : RowData) (rowNumber : Nat) (server : Server)
    (env : Env) (config : Config)
    (ht : ¬optTrim row.title = "") (hc : ¬optTrim row.content = "")
    (hscan : (findPostByTitle (optTrim row.title) server.posts env).1 = none) :
    (∀ pid i st2, ¬optTrim row.slug = "" →
      (findPostBySlug (optTrim row.slug) server.posts env).1 = some pid →
      env.updateResult pid = .ok (i, st2) →
      (createOrUpdatePost row rowNumber server env config).result.action = some "updated" ∧
        (createOrUpdatePost row rowNumber server env config).result.postId = some i ∧
        RemoteCall.updatePost pid ∈
          (createOrUpdatePost row rowNumber server env config).calls) ∧
      (∀ i st2, (optTrim row.slug = "" ∨
          (findPostBySlug (optTrim row.slug) server.posts env).1 = none) →
        env.createResult = .ok (i, st2) →
        (createOrUpdatePost row rowNumber server env config).result.action = some "created" ∧
          (createOrUpdatePost row rowNumber server env config).result.postId = some i ∧
          RemoteCall.createPost ∈
            (createOrUpdatePost row rowNumber server env config).calls) := by
  constructor
  · intro pid i st2 hslug hfindx hupd
    have h := createOrUpdatePost_update row rowNumber server env config pid i st2
      ht hc hscan hslug hfindx hupd
    exact ⟨h.1, h.2.1, h.2.2.2.2⟩
  · intro i st2 hns hcr
    have h := createOrUpdatePost_create row rowNumber server env config i st2
      ht hc hscan hns hcr
    exact ⟨h.1, h.2.1, h.2.2.2.2⟩

theorem claim_C2_witness :
    ((createOrUpdatePost slugRow 1 demoServer benignEnv demoConfig).result.action =
        some "updated" ∧
      (createOrUpdatePost slugRow 1 demoServer benignEnv demoConfig).result.postId =
        some 601 ∧
      RemoteCall.updatePost 9 ∈
        (createOrUpdatePost slugRow 1 demoServer benignEnv demoConfig).calls) ∧
      ((createOrUpdatePost noSlugRow 1 demoServer benignEnv demoConfig).result.action =
        some "created" ∧
      (createOrUpdatePost noSlugRow 1 demoServer benignEnv demoConfig).result.postId =
        some 501 ∧
      RemoteCall.createPost ∈
        (createOrUpdatePost noSlugRow 1 demoServer benignEnv demoConfig).calls) :=
  ⟨(claim_C2_amended slugRow 1 demoServer benignEnv demoConfig (by decide) (by decide)
      (by decide)).1 9 601 "publish" (by decide) (by decide) rfl,
    (claim_C2_amended noSlugRow 1 demoServer benignEnv demoConfig (by decide) (by decide)
      (by decide)).2 501 "draft" (Or.inl (by decide)) rfl⟩


/-- C3 counterexample: batch processing of an empty row list does not produce
an (empty) result list — it throws "CSV file is empty". -/
theorem claim_C3_counterexample :
    processCsvFile [] demoServer benignEnv demoConfig = Except.error "CSV file is empty" := by
  rfl

/-- C3 (amended): for every nonempty input list of N rows, when the preflight
connectivity check passes, batch processing returns a summary with exactly N
results in input order, the i-th carrying row number i+1, and reported
successes plus failures equal to N. -/
theorem claim_C3_amended (rows : List RowData) (server : Server) (env : Env)
    (config : Config) (hconn : env.connected = true) (hne : rows ≠ []) :
    ∃ s, processCsvFile rows server env config = Except.ok s ∧
      s.total = rows.length ∧
      s.results.length = rows.length ∧
      (∀ j (hj : j < s.results.length), (s.results.get ⟨j, hj⟩).rowNumber = j + 1) ∧
      s.success + s.failed = rows.length :=
  processCsvFile_spec rows server env config hconn hne

theorem claim_C3_witness :
    ∃ s, processCsvFile [noSlugRow, ⟨none, some "body", none, none, none, none, none,
        none, none, none⟩] demoServer benignEnv demoConfig = Except.ok s ∧
      s.total = 2 ∧
      s.results.length = 2 ∧
      (∀ j (hj : j < s.results.length), (s.results.get ⟨j, hj⟩).rowNumber = j + 1) ∧
      s.success + s.failed = 2 :=
  claim_C3_amended [noSlugRow, ⟨none, some "body", none, none, none, none, none,
    none, none, none⟩] demoServer benignEnv demoConfig rfl (by decide)

/-- C9 counterexample: the repeated label list "a, a" has one distinct
non-empty trimmed label, yet the resolver returns two identifiers (the claim's
one-identifier-per-distinct-label reading fails on duplicate labels). -/
theorem claim_C9_counterexample :
    (labelsOf "a, a").dedup = ["a"] ∧
      (resolveTerms "a, a" "tags" ⟨[], 1⟩ benignEnv).1 = [1, 1] := by
  decide

/-- C9 (amended): the resolver returns exactly the spec-side resolution of its
per-occurrence label list — one identifier per non-empty trimmed label
occurrence, in order, skipping labels whose remote calls fail, reusing a
case-insensitive exact name match and creating the term otherwise (so a
repeated label repeats the same identifier). -/
theorem claim_C9_amended :
    ∀ (termString taxonomy : String) (st : TaxState) (env : Env),
      (resolveTerms termString taxonomy st env).1 =
        (specResolve taxonomy env (labelsOf termString) st).1 ∧
        (resolveTerms termString taxonomy st env).2.1 =
          (specResolve taxonomy env (labelsOf termString) st).2 :=
  fun termString taxonomy st env => resolveTerms_eq_spec termString taxonomy st env

/-- C10: a thrown listing call makes the duplicate scan return `none` — the
same value as a verified absence; a thrown slug query likewise returns
`none`; consequently a valid row on an arbitrary server (which may well
contain a same-titled post) proceeds to a create. -/
theorem claim_C10_scan_error_swallowed :
    (∀ (title : String) (posts : List Post) (env : Env), env.scanFail 1 = true →
        (findPostByTitle title posts env).1 = none) ∧
      (∀ (slug : String) (posts : List Post) (env : Env), env.slugFail = true →
        (findPostBySlug slug posts env).1 = none) ∧
      (∀ (row : RowData) (server : Server) (env : Env) (config : Config)
          (i : Nat) (st2 : String),
        ¬optTrim row.title = "" → ¬optTrim row.content = "" →
        env.scanFail 1 = true → env.slugFail = true →
        env.createResult = .ok (i, st2) →
        (createOrUpdatePost row 1 server env config).result.action = some "created") := by
  refine ⟨findPostByTitle_scanFail, findPostBySlug_slugFail, ?_⟩
  intro row server env config i st2 ht hc hscan hslug hcr
  have hs : (findPostByTitle (optTrim row.title) server.posts env).1 = none :=
    findPostByTitle_scanFail _ _ _ hscan
  by_cases hb : optTrim row.slug = ""
  · exact (createOrUpdatePost_create row 1 server env config i st2 ht hc hs
      (Or.inl hb) hcr).1
  · exact (createOrUpdatePost_create row 1 server env config i st2 ht hc hs
      (Or.inr (findPostBySlug_slugFail _ _ _ hslug)) hcr).1

def failScanEnv : Env :=
  { benignEnv with scanFail := fun _ => true, slugFail := true }

theorem claim_C10_witness :
    (findPostByTitle "Hello World" demoServer.posts failScanEnv).1 = none ∧
      (findPostBySlug "hello-world" demoServer.posts failScanEnv).1 = none ∧
      (createOrUpdatePost ⟨some "Hello World", some "body", none, none, none, none,
        none, none, none, none⟩ 1 demoServer failScanEnv demoConfig).result.action =
        some "created" :=
  ⟨claim_C10_scan_error_swallowed.1 "Hello World" demoServer.posts failScanEnv rfl,
    claim_C10_scan_error_swallowed.2.1 "hello-world" demoServer.posts failScanEnv rfl,
    claim_C10_scan_error_swallowed.2.2 ⟨some "Hello World", some "body", none, none,
      none, none, none, none, none, none⟩ demoServer failScanEnv demoConfig 501 "draft"
      (by decide) (by decide) rfl rfl rfl⟩


def htmlEnv : Env :=
  { benignEnv with
      imgFetch := fun _ => some ⟨"<html>login page</html>", some "text/html", none⟩ }

/-- C7: divergence at the failing input. For a fetch whose response has
content-type `text/html`, the debug script's fetcher returns "no asset"
(`none`), but the pipeline's fetcher — the one `uploadMedia` actually uses —
accepts the HTML bytes with MIME type `text/html`, and the upload call is
attempted instead of the row proceeding without a featured image. -/
theorem claim_C7_html_uploaded :
    Repro.downloadImageFromUrl "https://example.com/page" htmlEnv = none ∧
      (downloadImageFromUrl "https://example.com/page" htmlEnv).1 =
        some ⟨"<html>login page</html>", "text/html", "page"⟩ ∧
      (uploadMedia "https://example.com/page" htmlEnv).1 = some 77 ∧
      RemoteCall.mediaUpload "page" ∈ (uploadMedia "https://example.com/page" htmlEnv).2 := by
  decide

def driveUrl : String :=
  "https://drive.google.com/file/d/106UqbiAdo-z6ROElnyEqHI-8Klhb_g2Z/view?usp=sharing"

/-- C8: the rewrite function itself behaves as documented (share link via
`/d/<ID>` or `id=<ID>` becomes the direct-download URL containing exactly
`<ID>`; a URL without a drive pattern passes through unchanged), but it lives
only in the debug script: the row pipeline's media ingestion fetches the raw
share URL and never the rewritten one. -/
theorem claim_C8_rewrite_not_in_pipeline :
    convertGoogleDriveUrl driveUrl =
      "https://drive.google.com/uc?export=download&id=106UqbiAdo-z6ROElnyEqHI-8Klhb_g2Z" ∧
      convertGoogleDriveUrl "https://drive.google.com/open?id=AbC_1-2" =
        "https://drive.google.com/uc?export=download&id=AbC_1-2" ∧
      convertGoogleDriveUrl "https://example.com/a.jpg" = "https://example.com/a.jpg" ∧
      RemoteCall.imgGet driveUrl ∈ (uploadMedia driveUrl htmlEnv).2 ∧
      RemoteCall.imgGet (convertGoogleDriveUrl driveUrl) ∉ (uploadMedia driveUrl htmlEnv).2 := by
  decide

end WPSync
